import Mathlib

/-!
Verification development for the SFTP channel-pool subsystem of the
`sshfs` repository (file `sshfs.py`).

The embedding models the two pool policies (`SFTPHardChannelPool` and
`SFTPSoftChannelPool`) together with the shared `_SFTPChannelPool` core
(`_maybe_new_channel`, `close`) as pure state-transition functions.

Modelling conventions:
- Channels are identified by the natural number order of their creation
  (`nextId` in the core state).
- The external asyncssh connection is modelled by a script
  `conn : Nat -> OpenResult` giving the outcome of the n-th call to
  `client.start_sftp_client()`: a successful channel, a
  `ChannelOpenError` (remote refusal), or any other exception.
- `attempts` counts how many times `start_sftp_client` has been called;
  an "attempt at channel creation" is precisely an increment of this
  counter.
- `held` records the channels of all currently outstanding consumer
  scopes (each `async with pool.get()` that has acquired a channel and
  has not yet released it).  A release operation is identified by the
  channel it returns, mirroring a consumer scope ending.
- The scheduling model is sequential: operations run one after another,
  which is the single-threaded cooperative model of the spec restricted
  to non-overlapping suspension points.
- `asyncio.Queue` of the hard pool is a FIFO list whose head is the next
  element returned by `get()` and whose tail receives `put_nowait`.
- The `Counter` of the soft pool is an insertion-ordered association
  list from channel to a (possibly negative, hence `Int`) usage count;
  `heapq.nsmallest(1, items, key)` is a stable minimum, modelled by a
  fold keeping the earliest minimum.
-/

/-- Outcome of one call to `client.start_sftp_client()`:
either a new channel, a `ChannelOpenError` raised by the remote side,
or any other exception. -/
inductive OpenResult where
  | success : OpenResult
  | refusal : OpenResult
  | failure : OpenResult
deriving DecidableEq

/-- The state of `_SFTPChannelPool` shared by both policies.
`force_terminate` models the source attribute `unsafe_terminate`. -/
structure PoolCore where
  max_channels : Option Nat
  active_channels : Nat
  timeout : Option Nat
  force_terminate : Bool
  conn : Nat → OpenResult
  attempts : Nat
  nextId : Nat
  created : List Nat
  held : List Nat

/-- `_MAX_TIMEOUT = 60 * 60 * 3`, the default `timeout` value. -/
def MAX_TIMEOUT : Nat := 60 * 60 * 3

/-- `_SFTPChannelPool.__init__`.  `timeoutArg = none` models calling the
constructor without passing `timeout` (the parameter then defaults to
`_MAX_TIMEOUT`); `timeoutArg = some t` models passing `timeout=t`, where
`t = none` is Python `None`. -/
def initPoolCore (conn : Nat → OpenResult) (maxChannels : Option Nat)
    (timeoutArg : Option (Option Nat)) (forceTerminate : Bool) : PoolCore :=
  { max_channels := maxChannels,
    active_channels := 0,
    timeout := timeoutArg.getD (some MAX_TIMEOUT),
    force_terminate := forceTerminate,
    conn := conn,
    attempts := 0,
    nextId := 0,
    created := [],
    held := [] }

/-- Result of `_SFTPChannelPool._maybe_new_channel`: a fresh channel, no
channel (`None`), or a propagated exception other than
`ChannelOpenError`. -/
inductive MaybeResult where
  | created : Nat → PoolCore → MaybeResult
  | noChannel : PoolCore → MaybeResult
  | failed : PoolCore → MaybeResult

/-- The creation guard of `_maybe_new_channel`:
`self.max_channels is None or self.active_channels < self.max_channels`. -/
def guardOk (c : PoolCore) : Bool :=
  match c.max_channels with
  | none => true
  | some m => c.active_channels < m

/-- `_SFTPChannelPool._maybe_new_channel`.  When the guard allows it, one
call to `start_sftp_client` is made (consuming `conn attempts`); a
`ChannelOpenError` freezes `max_channels := active_channels` and yields
no channel; any other exception propagates. -/
def maybeNewChannel (c : PoolCore) : MaybeResult :=
  if guardOk c then
    match c.conn c.attempts with
    | OpenResult.success =>
        MaybeResult.created c.nextId
          { c with attempts := c.attempts + 1, nextId := c.nextId + 1,
                   created := c.created ++ [c.nextId] }
    | OpenResult.refusal =>
        MaybeResult.noChannel
          { c with attempts := c.attempts + 1,
                   max_channels := some c.active_channels }
    | OpenResult.failure =>
        MaybeResult.failed { c with attempts := c.attempts + 1 }
  else
    MaybeResult.noChannel c

/-- A creation attempt has already been refused by the remote side: some
past call to `start_sftp_client` raised `ChannelOpenError`. -/
def Frozen (c : PoolCore) : Prop :=
  ∃ j, j < c.attempts ∧ c.conn j = OpenResult.refusal

instance decFrozen (c : PoolCore) : Decidable (Frozen c) :=
  decidable_of_iff
    ((List.range c.attempts).any (fun j => decide (c.conn j = OpenResult.refusal)) = true)
    (by simp [Frozen, List.any_eq_true, List.mem_range])

/-! ## The hard (exclusive) pool -/

/-- State of `SFTPHardChannelPool`: the shared core plus the
`asyncio.Queue` of free channels (head = next `get()`, tail = `put`). -/
structure HardState where
  core : PoolCore
  queue : List Nat

def hardInit (conn : Nat → OpenResult) (maxChannels : Option Nat)
    (timeoutArg : Option (Option Nat)) (forceTerminate : Bool) : HardState :=
  { core := initPoolCore conn maxChannels timeoutArg forceTerminate,
    queue := [] }

/-- Result of the acquisition part of `SFTPHardChannelPool.get`:
a channel, a `TimeoutError` from `asyncio.wait_for`, an unbounded wait
that can never be satisfied (`timeout=None` with nothing ever released
in the sequential model), or a propagated creation exception. -/
inductive HardRes where
  | ok : Nat → HardRes
  | timeout : HardRes
  | blocked : HardRes
  | openFailure : HardRes
deriving DecidableEq

/-- The successful tail of `SFTPHardChannelPool.get` up to `yield`:
`self.active_channels += 1` and the scope now holds `chan`. -/
def hardFinish (s : HardState) (chan : Nat) : HardRes × HardState :=
  (HardRes.ok chan,
   { s with core := { s.core with
       active_channels := s.core.active_channels + 1,
       held := chan :: s.core.held } })

/-- Acquisition part of `SFTPHardChannelPool.get` (everything before
`yield`): create only if the queue is empty; if no channel was created,
wait on the queue (which returns its head at once when non-empty, and
otherwise, nothing ever arriving in the sequential model, is bounded by
`timeout`). -/
def hardAcq (s : HardState) : HardRes × HardState :=
  match s.queue with
  | chan :: rest => hardFinish { core := s.core, queue := rest } chan
  | [] =>
    match maybeNewChannel s.core with
    | MaybeResult.failed c => (HardRes.openFailure, { s with core := c })
    | MaybeResult.created chan c => hardFinish { s with core := c } chan
    | MaybeResult.noChannel c =>
      match c.timeout with
      | some _ => (HardRes.timeout, { s with core := c })
      | none => (HardRes.blocked, { s with core := c })

/-- Release part of `SFTPHardChannelPool.get` (the lines after `yield`):
`self.active_channels -= 1; self._queue.put_nowait(channel)`.  It is
modelled for an outstanding scope only (`chan` held). -/
def hardRel (s : HardState) (chan : Nat) : HardState :=
  if s.core.held.contains chan then
    { core := { s.core with
        active_channels := s.core.active_channels - 1,
        held := s.core.held.erase chan },
      queue := s.queue ++ [chan] }
  else s

/-! ## The soft (shared) pool -/

/-- Insertion-ordered association list modelling the `Counter`
`self._channels`; usage counts are integers as in Python. -/
def lookupUsage : List (Nat × Int) → Nat → Int
  | [], _ => 0
  | p :: ps, chan => if p.1 = chan then p.2 else lookupUsage ps chan

def hasKey : List (Nat × Int) → Nat → Bool
  | [], _ => false
  | p :: ps, chan => decide (p.1 = chan) || hasKey ps chan

/-- `self._channels[chan] += 1` on a `Counter`: update the entry if the
key is present, otherwise append it with value `0 + 1`. -/
def bump : List (Nat × Int) → Nat → List (Nat × Int)
  | [], chan => [(chan, 1)]
  | p :: ps, chan =>
    if p.1 = chan then (p.1, p.2 + 1) :: ps else p :: bump ps chan

/-- `self._channels[chan] -= 1` on a `Counter`: update the entry if the
key is present, otherwise append it with value `0 - 1`. -/
def decUsage : List (Nat × Int) → Nat → List (Nat × Int)
  | [], chan => [(chan, -1)]
  | p :: ps, chan =>
    if p.1 = chan then (p.1, p.2 - 1) :: ps else p :: decUsage ps chan

def sumUsages (l : List (Nat × Int)) : Int := (l.map Prod.snd).sum

/-- Stable minimum by usage over a nonempty prefix, modelling
`heapq.nsmallest(1, self._channels.items(), lambda kv: kv[1])`:
the earliest entry with minimal usage wins. -/
def minFold (b : Nat × Int) (l : List (Nat × Int)) : Nat × Int :=
  l.foldl (fun acc kv => if kv.2 < acc.2 then kv else acc) b

def leastUsed : List (Nat × Int) → Option (Nat × Int)
  | [] => none
  | p :: ps => some (minFold p ps)

/-- State of `SFTPSoftChannelPool`: the shared core plus the usage
`Counter`. -/
structure SoftState where
  core : PoolCore
  channels : List (Nat × Int)

def softInit (conn : Nat → OpenResult) (maxChannels : Option Nat)
    (timeoutArg : Option (Option Nat)) (forceTerminate : Bool) : SoftState :=
  { core := initPoolCore conn maxChannels timeoutArg forceTerminate,
    channels := [] }

/-- Result of the acquisition part of `SFTPSoftChannelPool.get`:
a channel, the `ValueError` raised when no channel can be selected or
created, or a propagated creation exception. -/
inductive SoftRes where
  | ok : Nat → SoftRes
  | noChannels : SoftRes
  | openFailure : SoftRes
deriving DecidableEq

/-- The successful tail of `SFTPSoftChannelPool.get` up to `yield`:
`self._channels[chan] += 1; self.active_channels += 1`. -/
def softFinish (s : SoftState) (chan : Nat) : SoftRes × SoftState :=
  (SoftRes.ok chan,
   { core := { s.core with
       active_channels := s.core.active_channels + 1,
       held := chan :: s.core.held },
     channels := bump s.channels chan })

/-- Acquisition part of `SFTPSoftChannelPool.get` (everything before
`yield`).  With no channels the placeholder `_NO_CHANNELS = [[None, 1]]`
gives a positive minimum, forcing the creation branch. -/
def softAcq (s : SoftState) : SoftRes × SoftState :=
  match leastUsed s.channels with
  | none =>
    match maybeNewChannel s.core with
    | MaybeResult.failed c => (SoftRes.openFailure, { s with core := c })
    | MaybeResult.created chan c => softFinish { s with core := c } chan
    | MaybeResult.noChannel c => (SoftRes.noChannels, { s with core := c })
  | some (chan0, n0) =>
    if 0 < n0 then
      match maybeNewChannel s.core with
      | MaybeResult.failed c => (SoftRes.openFailure, { s with core := c })
      | MaybeResult.created chan c => softFinish { s with core := c } chan
      | MaybeResult.noChannel c => softFinish { s with core := c } chan0
    else
      softFinish s chan0

/-- Release part of `SFTPSoftChannelPool.get` (the lines after `yield`):
`self._channels[chan] -= 1; self.active_channels -= 1`.  It is modelled
for an outstanding scope only (`chan` held). -/
def softRel (s : SoftState) (chan : Nat) : SoftState :=
  if s.core.held.contains chan then
    { core := { s.core with
        active_channels := s.core.active_channels - 1,
        held := s.core.held.erase chan },
      channels := decUsage s.channels chan }
  else s

/-! ## Consumer scopes and close -/

/-- Whether the consumer body inside `async with pool.get() as channel:`
returns normally or raises. -/
inductive BodyOutcome where
  | normal : BodyOutcome
  | raises : BodyOutcome
deriving DecidableEq

/-- A full `async with pool.get():` scope of the hard pool.
`@asynccontextmanager` runs the lines after `yield` only when the body
returns normally; an exception raised by the body is thrown at the
`yield` point and, with no try/finally around it, propagates with the
release lines skipped. -/
def hardScope (s : HardState) (b : BodyOutcome) : HardRes × HardState :=
  match hardAcq s with
  | (HardRes.ok chan, s1) =>
    match b with
    | BodyOutcome.normal => (HardRes.ok chan, hardRel s1 chan)
    | BodyOutcome.raises => (HardRes.ok chan, s1)
  | other => other

/-- A full `async with pool.get():` scope of the soft pool; same
`@asynccontextmanager` semantics as `hardScope`. -/
def softScope (s : SoftState) (b : BodyOutcome) : SoftRes × SoftState :=
  match softAcq s with
  | (SoftRes.ok chan, s1) =>
    match b with
    | BodyOutcome.normal => (SoftRes.ok chan, softRel s1 chan)
    | BodyOutcome.raises => (SoftRes.ok chan, s1)
  | other => other

/-- Result of `_SFTPChannelPool.close`: success or the `RuntimeError`
raised when active channels remain under the strict policy. -/
inductive CloseRes where
  | ok : CloseRes
  | leakError : CloseRes
deriving DecidableEq

/-- `close` on the hard pool: raise before any teardown when channels
are active and termination is strict; otherwise `_cleanup` drains the
queue and `self._stack.aclose()` closes every created channel. -/
def hardClose (s : HardState) : CloseRes × HardState :=
  if s.core.active_channels ≠ 0 ∧ s.core.force_terminate = false then
    (CloseRes.leakError, s)
  else
    (CloseRes.ok, { core := { s.core with created := [] }, queue := [] })

/-- `close` on the soft pool: raise before any teardown when channels
are active and termination is strict; otherwise `_cleanup` clears the
`Counter` and `self._stack.aclose()` closes every created channel. -/
def softClose (s : SoftState) : CloseRes × SoftState :=
  if s.core.active_channels ≠ 0 ∧ s.core.force_terminate = false then
    (CloseRes.leakError, s)
  else
    (CloseRes.ok, { core := { s.core with created := [] }, channels := [] })

/-! ## Operation sequences during the pool lifetime -/

/-- One pool interaction during the pool lifetime: an acquisition, or
the end of an outstanding consumer scope holding `chan` (a scope whose
body raised simply never has a matching `rel`). -/
inductive PoolOp where
  | acq : PoolOp
  | rel : Nat → PoolOp
deriving DecidableEq

def hardStep (s : HardState) (op : PoolOp) : HardState :=
  match op with
  | PoolOp.acq => (hardAcq s).2
  | PoolOp.rel chan => hardRel s chan

def hardRun (s : HardState) (ops : List PoolOp) : HardState :=
  ops.foldl hardStep s

def softStep (s : SoftState) (op : PoolOp) : SoftState :=
  match op with
  | PoolOp.acq => (softAcq s).2
  | PoolOp.rel chan => softRel s chan

def softRun (s : SoftState) (ops : List PoolOp) : SoftState :=
  ops.foldl softStep s

/-! ## SSHFile construction -/

/-- Target location computed by `SSHFile.__init__`: the remote path for
reads, a fresh temporary name under the parent directory for writes
(`_get_tmp_file`). -/
inductive FileLocation where
  | remote : String → FileLocation
  | tmpIn : String → FileLocation
deriving DecidableEq

/-- The two errors an `SSHFile` construction can raise while validating
the mode: fsspec `AbstractBufferedFile.__init__` raises
`NotImplementedError` for modes outside `{"ab", "rb", "wb"}`, and
`SSHFile.__init__` raises `ValueError` for the modes the base class
accepts but sshfs does not (only `"ab"` reaches that check). -/
inductive FileInitError where
  | notImplemented : String → FileInitError
  | valueError : String → FileInitError
deriving DecidableEq

/-- The `super().__init__(fs, path, mode, **kwargs)` call at the top of
`SSHFile.__init__` is fsspec `AbstractBufferedFile.__init__` (an
external collaborator; modelled from its mode handling).  It first
raises `NotImplementedError("File mode not supported")` for every mode
outside `{"ab", "rb", "wb"}` — before `SSHFile.__init__`'s own check can
run and before any pool interaction.  For mode `"rb"` it then reads the
remote file's details, one scoped pool acquisition
(`fs.info` -> `pool.get` -> `stat`), modelled as a normally-exiting
consumer scope (the successful-stat interleaving).  For `"ab"` and
`"wb"` it only sets up the local write buffer, touching no channel. -/
def abstractBufferedFileInit (mode : String) (pool : SoftState) :
    Except FileInitError SoftState :=
  if mode = "ab" ∨ mode = "rb" ∨ mode = "wb" then
    if mode = "rb" then
      Except.ok (softScope pool BodyOutcome.normal).2
    else
      Except.ok pool
  else
    Except.error (FileInitError.notImplemented "File mode not supported")

/-- `SSHFile.__init__`: `super().__init__` validates and stores the mode
(raising for modes outside `{"ab", "rb", "wb"}`); then any mode other
than `"rb"`/`"wb"` — at this point only `"ab"` — raises `ValueError`
naming the mode, before any channel is acquired; finally the target
location is the remote path for reads and a fresh temporary name under
the parent directory for writes (`_get_tmp_file`).  An error result
carries the pool state at the moment of the raise. -/
def sshfileInit (mode : String) (path parent : String) (pool : SoftState) :
    Except (FileInitError × SoftState) (FileLocation × SoftState) :=
  match abstractBufferedFileInit mode pool with
  | Except.error e => Except.error (e, pool)
  | Except.ok pool1 =>
    if mode = "rb" ∨ mode = "wb" then
      if mode.data.contains 'w' then
        Except.ok (FileLocation.tmpIn parent, pool1)
      else
        Except.ok (FileLocation.remote path, pool1)
    else
      Except.error (FileInitError.valueError ("Unsupported file open mode: " ++ mode), pool1)

/-! ## Helper lemmas about `maybeNewChannel` -/

theorem maybeNewChannel_noChannel_fields {c0 c : PoolCore}
    (h : maybeNewChannel c0 = MaybeResult.noChannel c) :
    c.active_channels = c0.active_channels ∧ c.held = c0.held ∧
      c.timeout = c0.timeout ∧ c.conn = c0.conn ∧
      c.created = c0.created ∧ c.nextId = c0.nextId ∧
      c.force_terminate = c0.force_terminate ∧ c0.attempts ≤ c.attempts := by
  unfold maybeNewChannel at h
  split at h
  · split at h
    · exact absurd h (by simp)
    · rw [MaybeResult.noChannel.injEq] at h
      subst h
      exact ⟨rfl, rfl, rfl, rfl, rfl, rfl, rfl, Nat.le_succ _⟩
    · exact absurd h (by simp)
  · rw [MaybeResult.noChannel.injEq] at h
    subst h
    exact ⟨rfl, rfl, rfl, rfl, rfl, rfl, rfl, Nat.le_refl _⟩

theorem maybeNewChannel_failed_fields {c0 c : PoolCore}
    (h : maybeNewChannel c0 = MaybeResult.failed c) :
    c = { c0 with attempts := c0.attempts + 1 } := by
  unfold maybeNewChannel at h
  split at h
  · split at h
    · exact absurd h (by simp)
    · exact absurd h (by simp)
    · rw [MaybeResult.failed.injEq] at h
      subst h
      rfl
  · exact absurd h (by simp)

theorem maybeNewChannel_created_fields {c0 c : PoolCore} {chan : Nat}
    (h : maybeNewChannel c0 = MaybeResult.created chan c) :
    chan = c0.nextId ∧
      c = { c0 with attempts := c0.attempts + 1, nextId := c0.nextId + 1,
                    created := c0.created ++ [c0.nextId] } := by
  unfold maybeNewChannel at h
  split at h
  · split at h
    · rw [MaybeResult.created.injEq] at h
      obtain ⟨h1, h2⟩ := h
      subst h1
      subst h2
      exact ⟨rfl, rfl⟩
    · exact absurd h (by simp)
    · exact absurd h (by simp)
  · exact absurd h (by simp)

/-! ## Claim C7 -/

/-- Claim C7: `_maybe_new_channel` with capacity unset or
`active_channels < max_channels` reacts to a `ChannelOpenError` by
freezing `max_channels := active_channels` and returning no channel
without raising; any other creation failure propagates (`failed`); and
with capacity set and `active_channels >= max_channels` no creation is
attempted at all (the state, `attempts` included, is untouched). -/
theorem maybe_new_channel_spec (c : PoolCore) :
    (guardOk c = true → c.conn c.attempts = OpenResult.refusal →
      maybeNewChannel c = MaybeResult.noChannel
        { c with attempts := c.attempts + 1,
                 max_channels := some c.active_channels }) ∧
    (guardOk c = true → c.conn c.attempts = OpenResult.failure →
      maybeNewChannel c = MaybeResult.failed { c with attempts := c.attempts + 1 }) ∧
    (guardOk c = false → maybeNewChannel c = MaybeResult.noChannel c) ∧
    (guardOk c = false ↔ ∃ m, c.max_channels = some m ∧ m ≤ c.active_channels) := by
  refine ⟨?_, ?_, ?_, ?_⟩
  · intro hg hr
    unfold maybeNewChannel
    rw [hg, hr]
    simp
  · intro hg hr
    unfold maybeNewChannel
    rw [hg, hr]
    simp
  · intro hg
    unfold maybeNewChannel
    rw [hg]
    simp
  · unfold guardOk
    cases hm : c.max_channels with
    | none => simp
    | some m => simp [decide_eq_false_iff_not, Nat.not_lt]

theorem maybe_new_channel_spec_witness :
    maybeNewChannel (initPoolCore (fun _ => OpenResult.refusal) none none true) =
      MaybeResult.noChannel
        { initPoolCore (fun _ => OpenResult.refusal) none none true with
            attempts := 1, max_channels := some 0 } ∧
    maybeNewChannel (initPoolCore (fun _ => OpenResult.success) (some 0) none true) =
      MaybeResult.noChannel (initPoolCore (fun _ => OpenResult.success) (some 0) none true) := by
  constructor
  · exact (maybe_new_channel_spec (initPoolCore (fun _ => OpenResult.refusal) none none true)).1 rfl rfl
  · exact (maybe_new_channel_spec (initPoolCore (fun _ => OpenResult.success) (some 0) none true)).2.2.1 rfl

/-! ## Claim C6 -/

/-- Claim C6: when a hard-pool acquisition fails with the distinguished
timeout error, `active_channels`, the free queue and the set of
outstanding scopes are exactly as before the acquisition began, and a
timeout bound was configured. -/
theorem hard_timeout_preserves_state (s : HardState)
    (h : (hardAcq s).1 = HardRes.timeout) :
    (hardAcq s).2.core.active_channels = s.core.active_channels ∧
    (hardAcq s).2.queue = s.queue ∧
    (hardAcq s).2.core.held = s.core.held ∧
    s.core.timeout ≠ none := by
  obtain ⟨c0, q⟩ := s
  cases q with
  | cons a l => exact HardRes.noConfusion h
  | nil =>
    cases hm : maybeNewChannel c0 with
    | created chan c =>
      simp only [hardAcq, hm, hardFinish] at h
      exact HardRes.noConfusion h
    | failed c =>
      simp only [hardAcq, hm] at h
      exact HardRes.noConfusion h
    | noChannel c =>
      obtain ⟨ha, hh, ht, -, -, -, -, -⟩ := maybeNewChannel_noChannel_fields hm
      cases hto : c.timeout with
      | none =>
        simp only [hardAcq, hm, hto] at h
        exact HardRes.noConfusion h
      | some t =>
        simp only [hardAcq, hm, hto]
        refine ⟨ha, trivial, hh, ?_⟩
        rw [← ht, hto]
        simp

theorem hard_timeout_preserves_state_witness :
    (hardAcq (hardInit (fun _ => OpenResult.refusal) none none true)).1 = HardRes.timeout ∧
    ((hardAcq (hardInit (fun _ => OpenResult.refusal) none none true)).2.core.active_channels =
       (hardInit (fun _ => OpenResult.refusal) none none true).core.active_channels ∧
     (hardAcq (hardInit (fun _ => OpenResult.refusal) none none true)).2.queue =
       (hardInit (fun _ => OpenResult.refusal) none none true).queue ∧
     (hardAcq (hardInit (fun _ => OpenResult.refusal) none none true)).2.core.held =
       (hardInit (fun _ => OpenResult.refusal) none none true).core.held ∧
     (hardInit (fun _ => OpenResult.refusal) none none true).core.timeout ≠ none) :=
  ⟨rfl, hard_timeout_preserves_state (hardInit (fun _ => OpenResult.refusal) none none true) rfl⟩

/-! ## Claim C3 -/

/-- Claim C3: `close()` with active channels under the strict policy
(`unsafe_terminate` false) returns the leak error with the pool state
completely unchanged; under the forceful policy it always succeeds and
clears the free queue (hard) or usage map (soft) and every created
channel, regardless of `active_channels`. -/
theorem close_strict_vs_forceful (sh : HardState) (ss : SoftState) :
    (sh.core.active_channels ≠ 0 → sh.core.force_terminate = false →
       hardClose sh = (CloseRes.leakError, sh)) ∧
    (sh.core.force_terminate = true →
       hardClose sh = (CloseRes.ok, { core := { sh.core with created := [] }, queue := [] })) ∧
    (ss.core.active_channels ≠ 0 → ss.core.force_terminate = false →
       softClose ss = (CloseRes.leakError, ss)) ∧
    (ss.core.force_terminate = true →
       softClose ss = (CloseRes.ok, { core := { ss.core with created := [] }, channels := [] })) := by
  refine ⟨?_, ?_, ?_, ?_⟩
  · intro ha hf
    unfold hardClose
    rw [if_pos ⟨ha, hf⟩]
  · intro hf
    unfold hardClose
    rw [if_neg]
    intro hcontra
    rw [hf] at hcontra
    exact Bool.true_eq_false.mp hcontra.2
  · intro ha hf
    unfold softClose
    rw [if_pos ⟨ha, hf⟩]
  · intro hf
    unfold softClose
    rw [if_neg]
    intro hcontra
    rw [hf] at hcontra
    exact Bool.true_eq_false.mp hcontra.2

theorem close_strict_vs_forceful_witness :
    hardClose { core := { initPoolCore (fun _ => OpenResult.success) none none false with
                            active_channels := 1 }, queue := [] } =
      (CloseRes.leakError,
       { core := { initPoolCore (fun _ => OpenResult.success) none none false with
                     active_channels := 1 }, queue := [] }) ∧
    softClose { core := { initPoolCore (fun _ => OpenResult.success) none none true with
                            active_channels := 1 }, channels := [(0, 1)] } =
      (CloseRes.ok,
       { core := { initPoolCore (fun _ => OpenResult.success) none none true with
                     active_channels := 1, created := [] }, channels := [] }) := by
  constructor
  · exact (close_strict_vs_forceful
      { core := { initPoolCore (fun _ => OpenResult.success) none none false with
                    active_channels := 1 }, queue := [] }
      { core := initPoolCore (fun _ => OpenResult.success) none none true,
        channels := [] }).1 (by simp) rfl
  · exact (close_strict_vs_forceful
      { core := initPoolCore (fun _ => OpenResult.success) none none true, queue := [] }
      { core := { initPoolCore (fun _ => OpenResult.success) none none true with
                    active_channels := 1 }, channels := [(0, 1)] }).2.2.2 rfl

/-! ## Claim C10 (corrected) -/

/-- Claim C10 counterexample: opening an `SSHFile` with mode `"r+b"`
(not `"rb"`/`"wb"`) does not raise the claimed `ValueError` naming the
mode: fsspec `AbstractBufferedFile.__init__`, called by
`SSHFile.__init__` before its own mode check, raises
`NotImplementedError("File mode not supported")` first. -/
theorem sshfile_valueerror_counterexample :
    sshfileInit "r+b" "p" "d" (softInit (fun _ => OpenResult.success) none none true) =
      Except.error (FileInitError.notImplemented "File mode not supported",
        softInit (fun _ => OpenResult.success) none none true) ∧
    sshfileInit "r+b" "p" "d" (softInit (fun _ => OpenResult.success) none none true) ≠
      Except.error (FileInitError.valueError ("Unsupported file open mode: " ++ "r+b"),
        softInit (fun _ => OpenResult.success) none none true) := by
  constructor
  · rfl
  · intro h
    rw [show sshfileInit "r+b" "p" "d" (softInit (fun _ => OpenResult.success) none none true) =
        Except.error (FileInitError.notImplemented "File mode not supported",
          softInit (fun _ => OpenResult.success) none none true) from rfl] at h
    rw [Except.error.injEq, Prod.mk.injEq] at h
    exact FileInitError.noConfusion h.1

/-- Claim C10 amended: only mode `"ab"` reaches `SSHFile.__init__`'s
check and raises the `ValueError` identifying the unsupported mode,
before any channel is acquired (the pool state carried by the error is
untouched); every mode outside `{"ab", "rb", "wb"}` instead raises
fsspec's `NotImplementedError` in the base-class constructor, before
`SSHFile`'s check runs and likewise before any channel is acquired; for
modes `"rb"` and `"wb"` construction proceeds without either error. -/
theorem sshfile_mode_validation (mode path parent : String) (pool : SoftState) :
    (mode ≠ "ab" → mode ≠ "rb" → mode ≠ "wb" →
       sshfileInit mode path parent pool =
         Except.error (FileInitError.notImplemented "File mode not supported", pool)) ∧
    (sshfileInit "ab" path parent pool =
       Except.error
         (FileInitError.valueError ("Unsupported file open mode: " ++ "ab"), pool)) ∧
    (mode = "rb" ∨ mode = "wb" →
       ∃ loc pool1, sshfileInit mode path parent pool = Except.ok (loc, pool1)) ∧
    (sshfileInit "wb" path parent pool =
       Except.ok (FileLocation.tmpIn parent, pool)) ∧
    (sshfileInit "rb" path parent pool =
       Except.ok (FileLocation.remote path, (softScope pool BodyOutcome.normal).2)) := by
  refine ⟨?_, ?_, ?_, ?_, ?_⟩
  · intro h1 h2 h3
    unfold sshfileInit abstractBufferedFileInit
    rw [if_neg]
    rintro (h | h | h)
    · exact h1 h
    · exact h2 h
    · exact h3 h
  · rfl
  · rintro (rfl | rfl)
    · refine ⟨FileLocation.remote path, (softScope pool BodyOutcome.normal).2, ?_⟩
      simp [sshfileInit, abstractBufferedFileInit]
    · refine ⟨FileLocation.tmpIn parent, pool, ?_⟩
      simp [sshfileInit, abstractBufferedFileInit]
  · simp [sshfileInit, abstractBufferedFileInit]
  · simp [sshfileInit, abstractBufferedFileInit]

theorem sshfile_mode_validation_witness :
    sshfileInit "r+b" "p" "d" (softInit (fun _ => OpenResult.success) none none true) =
      Except.error (FileInitError.notImplemented "File mode not supported",
        softInit (fun _ => OpenResult.success) none none true) ∧
    (∃ loc pool1,
      sshfileInit "rb" "p" "d" (softInit (fun _ => OpenResult.success) none none true) =
        Except.ok (loc, pool1)) ∧
    (∃ loc pool1,
      sshfileInit "wb" "p" "d" (softInit (fun _ => OpenResult.success) none none true) =
        Except.ok (loc, pool1)) := by
  refine ⟨?_, ?_, ?_⟩
  · exact (sshfile_mode_validation "r+b" "p" "d"
      (softInit (fun _ => OpenResult.success) none none true)).1
      (by decide) (by decide) (by decide)
  · exact (sshfile_mode_validation "rb" "p" "d"
      (softInit (fun _ => OpenResult.success) none none true)).2.2.1 (Or.inl rfl)
  · exact (sshfile_mode_validation "wb" "p" "d"
      (softInit (fun _ => OpenResult.success) none none true)).2.2.1 (Or.inr rfl)

/-! ## Claim C9 (corrected) -/

/-- Claim C9 counterexample: a hard pool constructed without passing a
timeout value does not wait unboundedly.  Its `timeout` defaults to
`_MAX_TIMEOUT` (10800 seconds), and an acquisition that must wait (empty
queue, creation refused) fails with the timeout error rather than
waiting forever. -/
theorem default_timeout_counterexample :
    (hardInit (fun _ => OpenResult.refusal) none none true).core.timeout = some MAX_TIMEOUT ∧
    (hardAcq (hardInit (fun _ => OpenResult.refusal) none none true)).1 = HardRes.timeout ∧
    (hardAcq (hardInit (fun _ => OpenResult.refusal) none none true)).1 ≠ HardRes.blocked :=
  ⟨rfl, rfl, by decide⟩

/-- Claim C9 amended: a pool constructed without a timeout value gets
`timeout = _MAX_TIMEOUT = 10800` seconds, and a waiting exclusive-policy
acquisition on such a pool fails with the timeout error; the wait is
unbounded (never a timeout error) only when `timeout` is explicitly
passed as `None`. -/
theorem timeout_unbounded_only_when_none :
    (∀ (conn : Nat → OpenResult) (mc : Option Nat) (ut : Bool),
       (hardInit conn mc none ut).core.timeout = some MAX_TIMEOUT) ∧
    (∀ s : HardState, s.core.timeout = none → (hardAcq s).1 ≠ HardRes.timeout) ∧
    (∀ (conn : Nat → OpenResult) (ut : Bool),
       (hardAcq (hardInit conn (some 0) none ut)).1 = HardRes.timeout) := by
  refine ⟨fun conn mc ut => rfl, ?_, fun conn ut => rfl⟩
  intro s hto h
  obtain ⟨c0, q⟩ := s
  cases q with
  | cons a l => exact HardRes.noConfusion h
  | nil =>
    cases hm : maybeNewChannel c0 with
    | created chan c =>
      simp only [hardAcq, hm, hardFinish] at h
      exact HardRes.noConfusion h
    | failed c =>
      simp only [hardAcq, hm] at h
      exact HardRes.noConfusion h
    | noChannel c =>
      obtain ⟨-, -, ht, -, -, -, -, -⟩ := maybeNewChannel_noChannel_fields hm
      have hcto : c.timeout = none := by rw [ht]; exact hto
      simp only [hardAcq, hm, hcto] at h
      exact HardRes.noConfusion h

theorem timeout_unbounded_only_when_none_witness :
    (hardInit (fun _ => OpenResult.refusal) none none true).core.timeout = some MAX_TIMEOUT ∧
    (hardAcq (hardInit (fun _ => OpenResult.refusal) none (some none) true)).1 ≠ HardRes.timeout :=
  ⟨timeout_unbounded_only_when_none.1 (fun _ => OpenResult.refusal) none true,
   timeout_unbounded_only_when_none.2.1
     (hardInit (fun _ => OpenResult.refusal) none (some none) true) rfl⟩

/-! ## Claim C1 (code bug) -/

/-- Claim C1 evaluated at the failing input: `get()` of both pools has
no try/finally around `yield`, so when the consumer body raises, the
release lines after `yield` are skipped.  On a fresh pool whose
connection grants one channel, a scope whose body raises leaves
`active_channels = 1` and the channel unreturned (hard: queue still
empty; soft: usage still 1), while a scope whose body returns normally
leaves `active_channels = 0` with the channel returned (hard: queue
`[0]`; soft: usage 0).  The claimed equality of post-states therefore
fails. -/
theorem scope_exception_skips_release :
    ((hardScope (hardInit (fun _ => OpenResult.success) none none true)
        BodyOutcome.raises).2.core.active_channels = 1 ∧
     (hardScope (hardInit (fun _ => OpenResult.success) none none true)
        BodyOutcome.raises).2.queue = [] ∧
     (hardScope (hardInit (fun _ => OpenResult.success) none none true)
        BodyOutcome.normal).2.core.active_channels = 0 ∧
     (hardScope (hardInit (fun _ => OpenResult.success) none none true)
        BodyOutcome.normal).2.queue = [0]) ∧
    ((softScope (softInit (fun _ => OpenResult.success) none none true)
        BodyOutcome.raises).2.core.active_channels = 1 ∧
     (softScope (softInit (fun _ => OpenResult.success) none none true)
        BodyOutcome.raises).2.channels = [(0, 1)] ∧
     (softScope (softInit (fun _ => OpenResult.success) none none true)
        BodyOutcome.normal).2.core.active_channels = 0 ∧
     (softScope (softInit (fun _ => OpenResult.success) none none true)
        BodyOutcome.normal).2.channels = [(0, 0)]) := by
  decide

/-! ## Claim C8 -/

/-- Claim C8: the hard pool acquires from a non-empty free queue by
taking its head with no creation attempt (full resulting state shown:
`attempts` is unchanged); when the queue is empty and the capacity guard
allows it, a creation attempt is made; and a released channel is
appended to the tail of the queue, so channels are handed out again in
release (FIFO) order. -/
theorem hard_pool_fifo_discipline (s : HardState) :
    (∀ chan rest, s.queue = chan :: rest →
       hardAcq s = (HardRes.ok chan,
         { core := { s.core with
             active_channels := s.core.active_channels + 1,
             held := chan :: s.core.held },
           queue := rest })) ∧
    (s.queue = [] → guardOk s.core = true →
       (hardAcq s).2.core.attempts = s.core.attempts + 1) ∧
    (∀ chan, s.core.held.contains chan = true →
       (hardRel s chan).queue = s.queue ++ [chan]) := by
  refine ⟨?_, ?_, ?_⟩
  · intro chan rest hq
    obtain ⟨c0, q⟩ := s
    simp only at hq
    subst hq
    rfl
  · intro hq hg
    obtain ⟨c0, q⟩ := s
    simp only at hq
    subst hq
    cases hc : c0.conn c0.attempts with
    | success => simp [hardAcq, maybeNewChannel, hg, hc, hardFinish]
    | refusal =>
      cases hto : c0.timeout <;>
        simp [hardAcq, maybeNewChannel, hg, hc, hto]
    | failure => simp [hardAcq, maybeNewChannel, hg, hc]
  · intro chan hc
    unfold hardRel
    rw [if_pos hc]

theorem hard_pool_fifo_discipline_witness :
    hardAcq { core := initPoolCore (fun _ => OpenResult.success) none none true,
              queue := [5, 7] } =
      (HardRes.ok 5,
       { core := { initPoolCore (fun _ => OpenResult.success) none none true with
                     active_channels := 1, held := [5] },
         queue := [7] }) ∧
    (hardAcq (hardInit (fun _ => OpenResult.success) none none true)).2.core.attempts = 1 ∧
    (hardRel { core := { initPoolCore (fun _ => OpenResult.success) none none true with
                           active_channels := 1, held := [5] },
               queue := [7] } 5).queue = [7, 5] := by
  refine ⟨?_, ?_, ?_⟩
  · exact (hard_pool_fifo_discipline
      { core := initPoolCore (fun _ => OpenResult.success) none none true,
        queue := [5, 7] }).1 5 [7] rfl
  · exact (hard_pool_fifo_discipline
      (hardInit (fun _ => OpenResult.success) none none true)).2.1 rfl rfl
  · exact (hard_pool_fifo_discipline
      { core := { initPoolCore (fun _ => OpenResult.success) none none true with
                    active_channels := 1, held := [5] },
        queue := [7] }).2.2 5 rfl

/-! ## Lemmas about the `Counter` association list -/

theorem hasKey_iff_exists {l : List (Nat × Int)} {chan : Nat} :
    hasKey l chan = true ↔ ∃ u, (chan, u) ∈ l := by
  induction l with
  | nil => simp [hasKey]
  | cons p ps ih =>
    cases p with
    | mk k v =>
      simp only [hasKey, Bool.or_eq_true, decide_eq_true_eq, List.mem_cons, ih]
      constructor
      · rintro (rfl | ⟨u, hu⟩)
        · exact ⟨v, Or.inl rfl⟩
        · exact ⟨u, Or.inr hu⟩
      · rintro ⟨u, h | hu⟩
        · rw [Prod.mk.injEq] at h
          exact Or.inl h.1.symm
        · exact Or.inr ⟨u, hu⟩

theorem hasKey_of_mem {l : List (Nat × Int)} {p : Nat × Int} (h : p ∈ l) :
    hasKey l p.1 = true :=
  hasKey_iff_exists.mpr ⟨p.2, by cases p; exact h⟩

theorem lookupUsage_bump_self (l : List (Nat × Int)) (chan : Nat) :
    lookupUsage (bump l chan) chan = lookupUsage l chan + 1 := by
  induction l with
  | nil => simp [bump, lookupUsage]
  | cons p ps ih =>
    by_cases h : p.1 = chan
    · simp [bump, lookupUsage, h]
    · simp [bump, lookupUsage, h, ih]

theorem lookupUsage_bump_ne (l : List (Nat × Int)) {chan x : Nat} (h : x ≠ chan) :
    lookupUsage (bump l chan) x = lookupUsage l x := by
  have h' : chan ≠ x := Ne.symm h
  induction l with
  | nil => simp [bump, lookupUsage, h']
  | cons p ps ih =>
    by_cases hp : p.1 = chan
    · subst hp
      simp [bump, lookupUsage, h']
    · simp only [bump, if_neg hp]
      by_cases hx : p.1 = x
      · simp [lookupUsage, hx]
      · simp [lookupUsage, hx, ih]

theorem lookupUsage_decUsage_self (l : List (Nat × Int)) (chan : Nat) :
    lookupUsage (decUsage l chan) chan = lookupUsage l chan - 1 := by
  induction l with
  | nil => simp [decUsage, lookupUsage]
  | cons p ps ih =>
    by_cases h : p.1 = chan
    · simp [decUsage, lookupUsage, h]
    · simp [decUsage, lookupUsage, h, ih]

theorem lookupUsage_decUsage_ne (l : List (Nat × Int)) {chan x : Nat} (h : x ≠ chan) :
    lookupUsage (decUsage l chan) x = lookupUsage l x := by
  have h' : chan ≠ x := Ne.symm h
  induction l with
  | nil => simp [decUsage, lookupUsage, h']
  | cons p ps ih =>
    by_cases hp : p.1 = chan
    · subst hp
      simp [decUsage, lookupUsage, h']
    · simp only [decUsage, if_neg hp]
      by_cases hx : p.1 = x
      · simp [lookupUsage, hx]
      · simp [lookupUsage, hx, ih]

theorem sumUsages_bump (l : List (Nat × Int)) (chan : Nat) :
    sumUsages (bump l chan) = sumUsages l + 1 := by
  induction l with
  | nil => simp [bump, sumUsages]
  | cons p ps ih =>
    by_cases h : p.1 = chan
    · simp [bump, sumUsages, h]
      ring
    · simp only [bump, if_neg h, sumUsages, List.map_cons, List.sum_cons] at ih ⊢
      rw [ih]
      ring

theorem sumUsages_decUsage (l : List (Nat × Int)) (chan : Nat) :
    sumUsages (decUsage l chan) = sumUsages l - 1 := by
  induction l with
  | nil => simp [decUsage, sumUsages]
  | cons p ps ih =>
    by_cases h : p.1 = chan
    · simp [decUsage, sumUsages, h]
      ring
    · simp only [decUsage, if_neg h, sumUsages, List.map_cons, List.sum_cons] at ih ⊢
      rw [ih]
      ring

theorem keys_bump_of_hasKey {l : List (Nat × Int)} {chan : Nat}
    (h : hasKey l chan = true) :
    (bump l chan).map Prod.fst = l.map Prod.fst := by
  induction l with
  | nil => simp [hasKey] at h
  | cons p ps ih =>
    by_cases hp : p.1 = chan
    · simp [bump, hp]
    · simp only [hasKey, Bool.or_eq_true, decide_eq_true_eq] at h
      rcases h with h | h
    
      · exact absurd h hp
      · simp [bump, hp, ih h]

theorem keys_bump_of_not_hasKey {l : List (Nat × Int)} {chan : Nat}
    (h : hasKey l chan = false) :
    (bump l chan).map Prod.fst = l.map Prod.fst ++ [chan] := by
  induction l with
  | nil => simp [bump]
  | cons p ps ih =>
    simp only [hasKey, Bool.or_eq_false_iff, decide_eq_false_iff_not] at h
    simp [bump, h.1, ih h.2]

theorem keys_decUsage_of_hasKey {l : List (Nat × Int)} {chan : Nat}
    (h : hasKey l chan = true) :
    (decUsage l chan).map Prod.fst = l.map Prod.fst := by
  induction l with
  | nil => simp [hasKey] at h
  | cons p ps ih =>
    by_cases hp : p.1 = chan
    · simp [decUsage, hp]
    · simp only [hasKey, Bool.or_eq_true, decide_eq_true_eq] at h
      rcases h with h | h
      · exact absurd h hp
      · simp [decUsage, hp, ih h]

theorem hasKey_bump (l : List (Nat × Int)) (chan x : Nat) :
    hasKey (bump l chan) x = (hasKey l x || decide (x = chan)) := by
  induction l with
  | nil =>
    by_cases hc : x = chan
    · subst hc
      simp [bump, hasKey]
    · simp [bump, hasKey, hc, Ne.symm hc]
  | cons p ps ih =>
    by_cases hp : p.1 = chan
    · subst hp
      by_cases hx : p.1 = x
      · simp [bump, hasKey, hx]
      · have hx' : x ≠ p.1 := Ne.symm hx
        simp [bump, hasKey, hx, hx']
    · simp [bump, if_neg hp, hasKey, ih, Bool.or_assoc]

theorem lookupUsage_of_mem_nodup {l : List (Nat × Int)} {p : Nat × Int}
    (hn : (l.map Prod.fst).Nodup) (h : p ∈ l) :
    lookupUsage l p.1 = p.2 := by
  induction l with
  | nil => simp at h
  | cons q qs ih =>
    simp only [List.map_cons, List.nodup_cons] at hn
    rcases List.mem_cons.mp h with rfl | h
    · simp [lookupUsage]
    · have hne : q.1 ≠ p.1 := by
        intro hc
        exact hn.1 (hc ▸ List.mem_map_of_mem Prod.fst h)
      simp only [lookupUsage, if_neg (fun hc => hne hc)]
      exact ih hn.2 h

theorem lookupUsage_eq_zero_of_not_hasKey {l : List (Nat × Int)} {chan : Nat}
    (h : hasKey l chan = false) : lookupUsage l chan = 0 := by
  induction l with
  | nil => rfl
  | cons p ps ih =>
    simp only [hasKey, Bool.or_eq_false_iff, decide_eq_false_iff_not] at h
    simp only [lookupUsage, if_neg h.1]
    exact ih h.2

theorem mem_keys_iff_hasKey {l : List (Nat × Int)} {chan : Nat} :
    chan ∈ l.map Prod.fst ↔ hasKey l chan = true := by
  rw [hasKey_iff_exists, List.mem_map]
  constructor
  · rintro ⟨⟨a, b⟩, hm, rfl⟩
    exact ⟨b, hm⟩
  · rintro ⟨u, hu⟩
    exact ⟨(chan, u), hu, rfl⟩

theorem length_bump_of_hasKey {l : List (Nat × Int)} {chan : Nat}
    (h : hasKey l chan = true) : (bump l chan).length = l.length := by
  have hk := congrArg List.length (keys_bump_of_hasKey h)
  simpa using hk

theorem length_bump_of_not_hasKey {l : List (Nat × Int)} {chan : Nat}
    (h : hasKey l chan = false) : (bump l chan).length = l.length + 1 := by
  have hk := congrArg List.length (keys_bump_of_not_hasKey h)
  simpa using hk

theorem length_decUsage_of_hasKey {l : List (Nat × Int)} {chan : Nat}
    (h : hasKey l chan = true) : (decUsage l chan).length = l.length := by
  have hk := congrArg List.length (keys_decUsage_of_hasKey h)
  simpa using hk

/-! ## Lemmas about the stable minimum -/

theorem minFold_cons (b q : Nat × Int) (qs : List (Nat × Int)) :
    minFold b (q :: qs) = minFold (if q.2 < b.2 then q else b) qs := rfl

theorem minFold_mem (l : List (Nat × Int)) :
    ∀ b, minFold b l = b ∨ minFold b l ∈ l := by
  induction l with
  | nil => intro b; exact Or.inl rfl
  | cons q qs ih =>
    intro b
    rw [minFold_cons]
    rcases ih (if q.2 < b.2 then q else b) with h | h
    · rw [h]
      by_cases hlt : q.2 < b.2
      · rw [if_pos hlt]
        exact Or.inr (List.mem_cons_self q qs)
      · rw [if_neg hlt]
        exact Or.inl rfl
    · exact Or.inr (List.mem_cons_of_mem q h)

theorem minFold_le (l : List (Nat × Int)) :
    ∀ b, (minFold b l).2 ≤ b.2 ∧ ∀ p ∈ l, (minFold b l).2 ≤ p.2 := by
  induction l with
  | nil =>
    intro b
    exact ⟨le_refl _, by simp⟩
  | cons q qs ih =>
    intro b
    rw [minFold_cons]
    obtain ⟨h1, h2⟩ := ih (if q.2 < b.2 then q else b)
    have hb : (if q.2 < b.2 then q else b).2 ≤ b.2 := by
      by_cases hlt : q.2 < b.2
      · simpa [hlt] using le_of_lt hlt
      · simp [hlt]
    have hq : (if q.2 < b.2 then q else b).2 ≤ q.2 := by
      by_cases hlt : q.2 < b.2
      · simp [hlt]
      · simpa [hlt] using le_of_not_lt hlt
    refine ⟨le_trans h1 hb, ?_⟩
    intro p hp
    rcases List.mem_cons.mp hp with rfl | hp
    · exact le_trans h1 hq
    · exact h2 p hp

/-- The selected entry of `heapq.nsmallest(1, ...)` is a real entry with
minimal usage. -/
theorem leastUsed_spec {l : List (Nat × Int)} {q : Nat × Int}
    (h : leastUsed l = some q) : q ∈ l ∧ ∀ p ∈ l, q.2 ≤ p.2 := by
  cases l with
  | nil => exact Option.noConfusion h
  | cons b bs =>
    simp only [leastUsed, Option.some.injEq] at h
    subst h
    constructor
    · rcases minFold_mem bs b with h | h
      · rw [h]
        exact List.mem_cons_self b bs
      · exact List.mem_cons_of_mem b h
    · intro p hp
      obtain ⟨h1, h2⟩ := minFold_le bs b
      rcases List.mem_cons.mp hp with rfl | hp
      · exact h1
      · exact h2 p hp

theorem leastUsed_eq_none {l : List (Nat × Int)} :
    leastUsed l = none ↔ l = [] := by
  cases l <;> simp [leastUsed]

theorem length_le_sumUsages {l : List (Nat × Int)} (h : ∀ p ∈ l, 1 ≤ p.2) :
    (l.length : Int) ≤ sumUsages l := by
  induction l with
  | nil => simp [sumUsages]
  | cons p ps ih =>
    have h1 := h p (List.mem_cons_self p ps)
    have h2 := ih (fun q hq => h q (List.mem_cons_of_mem p hq))
    simp only [sumUsages, List.map_cons, List.sum_cons, List.length_cons] at h2 ⊢
    push_cast
    omega

theorem sumUsages_le_length {l : List (Nat × Int)} (h : ∀ p ∈ l, p.2 ≤ 1) :
    sumUsages l ≤ (l.length : Int) := by
  induction l with
  | nil => simp [sumUsages]
  | cons p ps ih =>
    have h1 := h p (List.mem_cons_self p ps)
    have h2 := ih (fun q hq => h q (List.mem_cons_of_mem p hq))
    simp only [sumUsages, List.map_cons, List.sum_cons, List.length_cons] at h2 ⊢
    push_cast
    omega

/-! ## Well-formedness of the soft pool -/

/-- Well-formedness of the soft pool data: the `Counter` keys are
distinct channels; each usage count equals the number of outstanding
scopes holding that channel; every outstanding channel is a `Counter`
key; `active_channels` counts the outstanding scopes; the usage counts
sum to `active_channels`; and all keys were previously created. -/
def SoftWFData (ch : List (Nat × Int)) (hd : List Nat) (a n : Nat) : Prop :=
  (ch.map Prod.fst).Nodup ∧
  (∀ x, lookupUsage ch x = (hd.count x : Int)) ∧
  (∀ x ∈ hd, hasKey ch x = true) ∧
  a = hd.length ∧
  sumUsages ch = (a : Int) ∧
  (∀ x, hasKey ch x = true → x < n)

def SoftWF (s : SoftState) : Prop :=
  SoftWFData s.channels s.core.held s.core.active_channels s.core.nextId

theorem wfdata_bump_mem {ch : List (Nat × Int)} {hd : List Nat} {a n k : Nat}
    (h : SoftWFData ch hd a n) (hk : hasKey ch k = true) :
    SoftWFData (bump ch k) (k :: hd) (a + 1) n := by
  obtain ⟨h1, h2, h3, h4, h5, h6⟩ := h
  refine ⟨?_, ?_, ?_, ?_, ?_, ?_⟩
  · rw [keys_bump_of_hasKey hk]
    exact h1
  · intro x
    by_cases hx : x = k
    · subst hx
      rw [lookupUsage_bump_self, h2 x, List.count_cons_self]
      push_cast
      ring
    · rw [lookupUsage_bump_ne _ hx, h2 x, List.count_cons_of_ne hx]
  · intro x hx
    rcases List.mem_cons.mp hx with rfl | hx
    · rw [hasKey_bump]
      simp
    · rw [hasKey_bump, h3 x hx]
      simp
  · simp [h4]
  · rw [sumUsages_bump, h5]
    push_cast
    ring
  · intro x hx
    rw [hasKey_bump, Bool.or_eq_true] at hx
    rcases hx with hx | hx
    · exact h6 x hx
    · rw [decide_eq_true_eq] at hx
      subst hx
      exact h6 x hk

theorem wfdata_bump_fresh {ch : List (Nat × Int)} {hd : List Nat} {a n : Nat}
    (h : SoftWFData ch hd a n) :
    SoftWFData (bump ch n) (n :: hd) (a + 1) (n + 1) := by
  obtain ⟨h1, h2, h3, h4, h5, h6⟩ := h
  have hk : hasKey ch n = false := by
    cases hcase : hasKey ch n
    · rfl
    · exact absurd (h6 n hcase) (lt_irrefl n)
  have hnm : n ∉ hd := by
    intro hmem
    rw [h3 n hmem] at hk
    exact Bool.noConfusion hk
  refine ⟨?_, ?_, ?_, ?_, ?_, ?_⟩
  · rw [keys_bump_of_not_hasKey hk, List.nodup_append]
    refine ⟨h1, List.nodup_singleton n, ?_⟩
    intro x hx hx'
    rw [List.mem_singleton] at hx'
    subst hx'
    rw [mem_keys_iff_hasKey, hk] at hx
    exact Bool.noConfusion hx
  · intro x
    by_cases hx : x = n
    · subst hx
      rw [lookupUsage_bump_self, lookupUsage_eq_zero_of_not_hasKey hk,
        List.count_cons_self, List.count_eq_zero_of_not_mem hnm]
      simp
    · rw [lookupUsage_bump_ne _ hx, h2 x, List.count_cons_of_ne hx]
  · intro x hx
    rcases List.mem_cons.mp hx with rfl | hx
    · rw [hasKey_bump]
      simp
    · rw [hasKey_bump, h3 x hx]
      simp
  · simp [h4]
  · rw [sumUsages_bump, h5]
    push_cast
    ring
  · intro x hx
    rw [hasKey_bump, Bool.or_eq_true] at hx
    rcases hx with hx | hx
    · exact Nat.lt_succ_of_lt (h6 x hx)
    · rw [decide_eq_true_eq] at hx
      subst hx
      exact Nat.lt_succ_self x

theorem wfdata_dec {ch : List (Nat × Int)} {hd : List Nat} {a n k : Nat}
    (h : SoftWFData ch hd a n) (hm : k ∈ hd) :
    SoftWFData (decUsage ch k) (hd.erase k) (a - 1) n := by
  obtain ⟨h1, h2, h3, h4, h5, h6⟩ := h
  have hk : hasKey ch k = true := h3 k hm
  have hc1 : 0 < hd.count k := List.count_pos_iff.mpr hm
  have hlen : 0 < hd.length := List.length_pos_of_mem hm
  refine ⟨?_, ?_, ?_, ?_, ?_, ?_⟩
  · rw [keys_decUsage_of_hasKey hk]
    exact h1
  · intro x
    by_cases hx : x = k
    · subst hx
      rw [lookupUsage_decUsage_self, h2 x, List.count_erase_self,
        Nat.cast_sub hc1]
      simp
    · rw [lookupUsage_decUsage_ne _ hx, h2 x, List.count_erase_of_ne hx]
  · intro x hx
    rw [← mem_keys_iff_hasKey, keys_decUsage_of_hasKey hk, mem_keys_iff_hasKey]
    exact h3 x (List.mem_of_mem_erase hx)
  · rw [h4, List.length_erase_of_mem hm]
  · rw [sumUsages_decUsage, h5, h4]
    omega
  · intro x hx
    rw [← mem_keys_iff_hasKey, keys_decUsage_of_hasKey hk,
      mem_keys_iff_hasKey] at hx
    exact h6 x hx

theorem softWFData_swap {chans : List (Nat × Int)} {c0 c : PoolCore}
    (h : SoftWFData chans c0.held c0.active_channels c0.nextId)
    (hh : c.held = c0.held) (ha : c.active_channels = c0.active_channels)
    (hn : c.nextId = c0.nextId) :
    SoftWFData chans c.held c.active_channels c.nextId := by
  rw [hh, ha, hn]
  exact h

theorem softWF_rel {s : SoftState} (h : SoftWF s) (chan : Nat) :
    SoftWF (softRel s chan) := by
  unfold softRel
  by_cases hc : s.core.held.contains chan = true
  · rw [if_pos hc]
    have hm : chan ∈ s.core.held := by
      rw [← List.elem_iff]
      exact hc
    exact wfdata_dec h hm
  · rw [if_neg hc]
    exact h

theorem softWF_acq {s : SoftState} (h : SoftWF s) : SoftWF (softAcq s).2 := by
  obtain ⟨c0, chans⟩ := s
  cases hl : leastUsed chans with
  | none =>
    cases hm : maybeNewChannel c0 with
    | created chan c =>
      obtain ⟨hchan, hc⟩ := maybeNewChannel_created_fields hm
      subst hchan
      subst hc
      simp only [softAcq, hl, hm, softFinish]
      exact wfdata_bump_fresh h
    | noChannel c =>
      obtain ⟨ha, hh, -, -, -, hnn, -, -⟩ := maybeNewChannel_noChannel_fields hm
      simp only [softAcq, hl, hm]
      exact softWFData_swap h hh ha hnn
    | failed c =>
      have hc := maybeNewChannel_failed_fields hm
      subst hc
      simp only [softAcq, hl, hm]
      exact h
  | some pair =>
    obtain ⟨chan0, n0⟩ := pair
    have hmem := (leastUsed_spec hl).1
    have hk : hasKey chans chan0 = true := hasKey_of_mem hmem
    by_cases hn : 0 < n0
    · cases hm : maybeNewChannel c0 with
      | created chan c =>
        obtain ⟨hchan, hc⟩ := maybeNewChannel_created_fields hm
        subst hchan
        subst hc
        simp only [softAcq, hl, if_pos hn, hm, softFinish]
        exact wfdata_bump_fresh h
      | noChannel c =>
        obtain ⟨ha, hh, -, -, -, hnn, -, -⟩ := maybeNewChannel_noChannel_fields hm
        simp only [softAcq, hl, if_pos hn, hm, softFinish]
        show SoftWFData (bump chans chan0) (chan0 :: c.held)
          (c.active_channels + 1) c.nextId
        rw [ha, hh, hnn]
        exact wfdata_bump_mem h hk
      | failed c =>
        have hc := maybeNewChannel_failed_fields hm
        subst hc
        simp only [softAcq, hl, if_pos hn, hm]
        exact h
    · simp only [softAcq, hl, if_neg hn, softFinish]
      exact wfdata_bump_mem h hk

theorem softWF_step {s : SoftState} (h : SoftWF s) (op : PoolOp) :
    SoftWF (softStep s op) := by
  cases op with
  | acq => exact softWF_acq h
  | rel chan => exact softWF_rel h chan

theorem softWF_init (conn : Nat → OpenResult) (mc : Option Nat)
    (tA : Option (Option Nat)) (ut : Bool) :
    SoftWF (softInit conn mc tA ut) := by
  refine ⟨by simp [softInit], fun x => by simp [softInit, initPoolCore, lookupUsage],
    by simp [softInit, initPoolCore], rfl,
    by simp [softInit, initPoolCore, sumUsages], fun x hx => ?_⟩
  simp [softInit, initPoolCore, hasKey] at hx

theorem softWF_run_aux (ops : List PoolOp) :
    ∀ s : SoftState, SoftWF s → SoftWF (softRun s ops) := by
  induction ops with
  | nil => exact fun s h => h
  | cons op rest ih =>
    intro s h
    exact ih (softStep s op) (softWF_step h op)

theorem softWF_run (conn : Nat → OpenResult) (mc : Option Nat)
    (tA : Option (Option Nat)) (ut : Bool) (ops : List PoolOp) :
    SoftWF (softRun (softInit conn mc tA ut) ops) :=
  softWF_run_aux ops (softInit conn mc tA ut) (softWF_init conn mc tA ut)

/-! ## Claim C5 -/

/-- Claim C5: after any sequence of acquire and release operations on
the shared pool (a scope whose body raised is an acquire with no
matching release), the usage counts sum to `active_channels` and no
usage count is negative. -/
theorem soft_usage_sum_invariant (conn : Nat → OpenResult) (mc : Option Nat)
    (tA : Option (Option Nat)) (ut : Bool) (ops : List PoolOp) :
    sumUsages (softRun (softInit conn mc tA ut) ops).channels =
      ((softRun (softInit conn mc tA ut) ops).core.active_channels : Int) ∧
    ∀ p ∈ (softRun (softInit conn mc tA ut) ops).channels, 0 ≤ p.2 := by
  obtain ⟨h1, h2, h3, h4, h5, h6⟩ := softWF_run conn mc tA ut ops
  refine ⟨h5, fun p hp => ?_⟩
  have hl := lookupUsage_of_mem_nodup h1 hp
  rw [← hl, h2 p.1]
  exact Int.natCast_nonneg _

/-! ## Claim C4 -/

theorem softAcq_selects_aux {s : SoftState} (hw : SoftWF s) :
    (∀ chan, (softAcq s).1 = SoftRes.ok chan →
       (hasKey s.channels chan = false ∧ chan = s.core.nextId) ∨
       (∃ u, (chan, u) ∈ s.channels ∧ ∀ p ∈ s.channels, u ≤ p.2)) ∧
    (s.channels = [] → guardOk s.core = true →
       (softAcq s).2.core.attempts = s.core.attempts + 1) := by
  obtain ⟨c0, chans⟩ := s
  constructor
  · intro chan hr
    cases hl : leastUsed chans with
    | none =>
      have hnil : chans = [] := leastUsed_eq_none.mp hl
      cases hm : maybeNewChannel c0 with
      | created ch c =>
        obtain ⟨hch, hc⟩ := maybeNewChannel_created_fields hm
        subst hch
        subst hc
        simp only [softAcq, hl, hm, softFinish] at hr
        rw [SoftRes.ok.injEq] at hr
        subst hr
        left
        subst hnil
        exact ⟨rfl, rfl⟩
      | noChannel c =>
        simp only [softAcq, hl, hm] at hr
        exact SoftRes.noConfusion hr
      | failed c =>
        simp only [softAcq, hl, hm] at hr
        exact SoftRes.noConfusion hr
    | some pair =>
      obtain ⟨chan0, n0⟩ := pair
      obtain ⟨hmem, hmin⟩ := leastUsed_spec hl
      by_cases hn : 0 < n0
      · cases hm : maybeNewChannel c0 with
        | created ch c =>
          obtain ⟨hch, hc⟩ := maybeNewChannel_created_fields hm
          subst hch
          subst hc
          simp only [softAcq, hl, if_pos hn, hm, softFinish] at hr
          rw [SoftRes.ok.injEq] at hr
          subst hr
          left
          refine ⟨?_, rfl⟩
          obtain ⟨-, -, -, -, -, h6⟩ := hw
          cases hcase : hasKey chans c0.nextId
          · rfl
          · exact absurd (h6 _ hcase) (lt_irrefl _)
        | noChannel c =>
          simp only [softAcq, hl, if_pos hn, hm, softFinish] at hr
          rw [SoftRes.ok.injEq] at hr
          subst hr
          right
          exact ⟨n0, hmem, hmin⟩
        | failed c =>
          simp only [softAcq, hl, if_pos hn, hm] at hr
          exact SoftRes.noConfusion hr
      · simp only [softAcq, hl, if_neg hn, softFinish] at hr
        rw [SoftRes.ok.injEq] at hr
        subst hr
        right
        exact ⟨n0, hmem, hmin⟩
  · intro hnil hg
    subst hnil
    cases hc : c0.conn c0.attempts with
    | success => simp [softAcq, leastUsed, maybeNewChannel, hg, hc, softFinish]
    | refusal => simp [softAcq, leastUsed, maybeNewChannel, hg, hc]
    | failure => simp [softAcq, leastUsed, maybeNewChannel, hg, hc]

/-- Claim C4: every successful shared-pool acquisition selects either a
freshly created channel (not yet a `Counter` key, so its usage starts at
zero) or an existing channel whose usage count is less than or equal to
every other known channel's count at the moment of selection; and when
no channels exist the placeholder minimum is positive, forcing a
creation attempt (whenever the capacity guard allows one at all). -/
theorem soft_get_selects_least_used (conn : Nat → OpenResult) (mc : Option Nat)
    (tA : Option (Option Nat)) (ut : Bool) (ops : List PoolOp) :
    (∀ chan, (softAcq (softRun (softInit conn mc tA ut) ops)).1 = SoftRes.ok chan →
       (hasKey (softRun (softInit conn mc tA ut) ops).channels chan = false ∧
        chan = (softRun (softInit conn mc tA ut) ops).core.nextId) ∨
       (∃ u, (chan, u) ∈ (softRun (softInit conn mc tA ut) ops).channels ∧
          ∀ p ∈ (softRun (softInit conn mc tA ut) ops).channels, u ≤ p.2)) ∧
    ((softRun (softInit conn mc tA ut) ops).channels = [] →
       guardOk (softRun (softInit conn mc tA ut) ops).core = true →
       (softAcq (softRun (softInit conn mc tA ut) ops)).2.core.attempts =
         (softRun (softInit conn mc tA ut) ops).core.attempts + 1) :=
  softAcq_selects_aux (softWF_run conn mc tA ut ops)

theorem soft_get_selects_least_used_witness :
    ((hasKey (softRun (softInit (fun _ => OpenResult.success) none none true) []).channels 0 = false ∧
      0 = (softRun (softInit (fun _ => OpenResult.success) none none true) []).core.nextId) ∨
     (∃ u, (0, u) ∈ (softRun (softInit (fun _ => OpenResult.success) none none true) []).channels ∧
        ∀ p ∈ (softRun (softInit (fun _ => OpenResult.success) none none true) []).channels, u ≤ p.2)) ∧
    (softAcq (softRun (softInit (fun _ => OpenResult.success) none none true) [])).2.core.attempts =
      (softRun (softInit (fun _ => OpenResult.success) none none true) []).core.attempts + 1 :=
  ⟨(soft_get_selects_least_used (fun _ => OpenResult.success) none none true []).1 0 rfl,
   (soft_get_selects_least_used (fun _ => OpenResult.success) none none true []).2 rfl rfl⟩

/-! ## Permanence of the capacity freeze -/

theorem maybeNewChannel_created_guard {c0 c : PoolCore} {chan : Nat}
    (h : maybeNewChannel c0 = MaybeResult.created chan c) :
    guardOk c0 = true := by
  unfold maybeNewChannel at h
  split at h
  · assumption
  · exact MaybeResult.noConfusion h

theorem maybeNewChannel_failed_guard {c0 c : PoolCore}
    (h : maybeNewChannel c0 = MaybeResult.failed c) :
    guardOk c0 = true := by
  unfold maybeNewChannel at h
  split at h
  · assumption
  · exact MaybeResult.noConfusion h

theorem maybeNewChannel_created_conn {c0 c : PoolCore} {chan : Nat}
    (h : maybeNewChannel c0 = MaybeResult.created chan c) :
    c0.conn c0.attempts = OpenResult.success := by
  unfold maybeNewChannel at h
  split at h
  · split at h
    · assumption
    · exact MaybeResult.noConfusion h
    · exact MaybeResult.noConfusion h
  · exact MaybeResult.noConfusion h

theorem maybeNewChannel_failed_conn {c0 c : PoolCore}
    (h : maybeNewChannel c0 = MaybeResult.failed c) :
    c0.conn c0.attempts = OpenResult.failure := by
  unfold maybeNewChannel at h
  split at h
  · split at h
    · exact MaybeResult.noConfusion h
    · exact MaybeResult.noConfusion h
    · assumption
  · exact MaybeResult.noConfusion h

theorem maybeNewChannel_noChannel_cases {c0 c : PoolCore}
    (h : maybeNewChannel c0 = MaybeResult.noChannel c) :
    (guardOk c0 = false ∧ c = c0) ∨
    (guardOk c0 = true ∧ c0.conn c0.attempts = OpenResult.refusal ∧
     c = { c0 with attempts := c0.attempts + 1,
                   max_channels := some c0.active_channels }) := by
  unfold maybeNewChannel at h
  split at h
  · split at h
    · exact MaybeResult.noConfusion h
    · rw [MaybeResult.noChannel.injEq] at h
      right
      exact ⟨by assumption, by assumption, h.symm⟩
    · exact MaybeResult.noConfusion h
  · rw [MaybeResult.noChannel.injEq] at h
    left
    refine ⟨?_, h.symm⟩
    rename_i hguard
    exact Bool.eq_false_iff.mpr hguard

theorem frozen_succ_iff {c c' : PoolCore} (hconn : c'.conn = c.conn)
    (hatt : c'.attempts = c.attempts + 1) :
    Frozen c' ↔ (Frozen c ∨ c.conn c.attempts = OpenResult.refusal) := by
  unfold Frozen
  rw [hconn, hatt]
  constructor
  · rintro ⟨j, hj, hr⟩
    rcases Nat.lt_succ_iff_lt_or_eq.mp hj with hlt | rfl
    · exact Or.inl ⟨j, hlt, hr⟩
    · exact Or.inr hr
  · rintro (⟨j, hj, hr⟩ | hr)
    · exact ⟨j, Nat.lt_succ_of_lt hj, hr⟩
    · exact ⟨c.attempts, Nat.lt_succ_self _, hr⟩

theorem frozen_same_iff {c c' : PoolCore} (hconn : c'.conn = c.conn)
    (hatt : c'.attempts = c.attempts) : Frozen c' ↔ Frozen c := by
  unfold Frozen
  rw [hconn, hatt]

theorem not_frozen_init (conn : Nat → OpenResult) (mc : Option Nat)
    (tA : Option (Option Nat)) (ut : Bool) :
    ¬ Frozen (initPoolCore conn mc tA ut) := by
  rintro ⟨j, hj, -⟩
  exact absurd hj (Nat.not_lt_zero j)

/-- Reachability invariant of the hard pool: every created channel is
either checked out or in the free queue, `active_channels` counts the
outstanding scopes, and once a creation refusal has happened the frozen
capacity equals the number of channels ever created. -/
def HardInv (s : HardState) : Prop :=
  s.core.created.length = s.core.active_channels + s.queue.length ∧
  s.core.active_channels = s.core.held.length ∧
  (Frozen s.core → s.core.max_channels = some s.core.created.length)

theorem hardInv_init (conn : Nat → OpenResult) (mc : Option Nat)
    (tA : Option (Option Nat)) (ut : Bool) :
    HardInv (hardInit conn mc tA ut) :=
  ⟨rfl, rfl, fun hF => absurd hF (not_frozen_init conn mc tA ut)⟩

theorem hardStep_freeze {s : HardState} (h : HardInv s) (op : PoolOp) :
    HardInv (hardStep s op) ∧
    (Frozen s.core →
       (hardStep s op).core.attempts = s.core.attempts ∧
       (hardStep s op).core.max_channels = s.core.max_channels ∧
       Frozen (hardStep s op).core) ∧
    (¬ Frozen s.core → Frozen (hardStep s op).core →
       (hardStep s op).core.max_channels = some s.core.active_channels) := by
  obtain ⟨c0, q⟩ := s
  obtain ⟨hcnt, hheld, hfr⟩ := h
  simp only at hcnt hheld hfr
  cases op with
  | rel chan =>
    simp only [hardStep]
    unfold hardRel
    by_cases hc : c0.held.contains chan = true
    · rw [if_pos hc]
      have hm : chan ∈ c0.held := by
        rw [← List.elem_iff]
        exact hc
      have hpos : 0 < c0.held.length := List.length_pos_of_mem hm
      refine ⟨⟨?_, ?_, fun hF => hfr hF⟩, fun hF => ⟨by trivial, by trivial, hF⟩,
        fun hnF hF => absurd hF hnF⟩
      · simp only [List.length_append, List.length_cons, List.length_nil]
        omega
      · simp only [List.length_erase_of_mem hm]
        omega
    · rw [if_neg hc]
      exact ⟨⟨hcnt, hheld, hfr⟩, fun hF => ⟨by trivial, by trivial, hF⟩,
        fun hnF hF => absurd hF hnF⟩
  | acq =>
    simp only [hardStep]
    cases q with
    | cons a l =>
      simp only [hardAcq, hardFinish]
      simp only [List.length_cons] at hcnt
      refine ⟨⟨?_, ?_, fun hF => hfr hF⟩, fun hF => ⟨by trivial, by trivial, hF⟩,
        fun hnF hF => absurd hF hnF⟩
      · simp only [List.length_cons]
        omega
      · simp only [List.length_cons]
        omega
    | nil =>
      simp only [List.length_nil, Nat.add_zero] at hcnt
      cases hm : maybeNewChannel c0 with
      | created chan c =>
        have hg := maybeNewChannel_created_guard hm
        obtain ⟨hchan, hcdef⟩ := maybeNewChannel_created_fields hm
        have hconn := maybeNewChannel_created_conn hm
        by_cases hF : Frozen c0
        · exfalso
          have hmax := hfr hF
          unfold guardOk at hg
          rw [hmax] at hg
          simp only [decide_eq_true_eq] at hg
          omega
        · have hFs : ∀ c' : PoolCore, c'.conn = c0.conn →
              c'.attempts = c0.attempts + 1 → ¬ Frozen c' := by
            intro c' hcn hat hF2
            rw [frozen_succ_iff hcn hat] at hF2
            rcases hF2 with hF0 | hr
            · exact hF hF0
            · rw [hconn] at hr
              exact OpenResult.noConfusion hr
          subst hchan
          subst hcdef
          simp only [hardAcq, hm, hardFinish]
          refine ⟨⟨?_, ?_, fun hF2 => absurd hF2 (hFs _ rfl rfl)⟩,
            fun hF0 => absurd hF0 hF, fun hnF hF2 => absurd hF2 (hFs _ rfl rfl)⟩
          · simp only [List.length_append, List.length_cons, List.length_nil]
            omega
          · simp only [List.length_cons]
            omega
      | failed c =>
        have hg := maybeNewChannel_failed_guard hm
        have hcdef := maybeNewChannel_failed_fields hm
        have hconn := maybeNewChannel_failed_conn hm
        by_cases hF : Frozen c0
        · exfalso
          have hmax := hfr hF
          unfold guardOk at hg
          rw [hmax] at hg
          simp only [decide_eq_true_eq] at hg
          omega
        · have hFs : ∀ c' : PoolCore, c'.conn = c0.conn →
              c'.attempts = c0.attempts + 1 → ¬ Frozen c' := by
            intro c' hcn hat hF2
            rw [frozen_succ_iff hcn hat] at hF2
            rcases hF2 with hF0 | hr
            · exact hF hF0
            · rw [hconn] at hr
              exact OpenResult.noConfusion hr
          subst hcdef
          simp only [hardAcq, hm]
          exact ⟨⟨by simpa using hcnt, hheld, fun hF2 => absurd hF2 (hFs _ rfl rfl)⟩,
            fun hF0 => absurd hF0 hF, fun hnF hF2 => absurd hF2 (hFs _ rfl rfl)⟩
      | noChannel c =>
        rcases maybeNewChannel_noChannel_cases hm with ⟨hg, hcdef⟩ | ⟨hg, hconn, hcdef⟩
        · subst hcdef
          cases hto : c.timeout with
          | some t =>
            simp only [hardAcq, hm, hto]
            exact ⟨⟨by simpa using hcnt, hheld, hfr⟩, fun hF => ⟨by trivial, by trivial, hF⟩,
              fun hnF hF => absurd hF hnF⟩
          | none =>
            simp only [hardAcq, hm, hto]
            exact ⟨⟨by simpa using hcnt, hheld, hfr⟩, fun hF => ⟨by trivial, by trivial, hF⟩,
              fun hnF hF => absurd hF hnF⟩
        · by_cases hF : Frozen c0
          · exfalso
            have hmax := hfr hF
            unfold guardOk at hg
            rw [hmax] at hg
            simp only [decide_eq_true_eq] at hg
            omega
          · have hFs : ∀ c' : PoolCore, c'.conn = c0.conn →
                c'.attempts = c0.attempts + 1 → Frozen c' := by
              intro c' hcn hat
              rw [frozen_succ_iff hcn hat]
              exact Or.inr hconn
            subst hcdef
            cases hto : c0.timeout with
            | some t =>
              simp only [hardAcq, hm, hto]
              refine ⟨⟨by simpa using hcnt, hheld, fun hF2 => ?_⟩,
                fun hF0 => absurd hF0 hF, fun hnF hF2 => by trivial⟩
              simp only [hcnt]
            | none =>
              simp only [hardAcq, hm, hto]
              refine ⟨⟨by simpa using hcnt, hheld, fun hF2 => ?_⟩,
                fun hF0 => absurd hF0 hF, fun hnF hF2 => by trivial⟩
              simp only [hcnt]

theorem hardInv_run_aux (ops : List PoolOp) :
    ∀ s : HardState, HardInv s → HardInv (hardRun s ops) := by
  induction ops with
  | nil => exact fun s h => h
  | cons op rest ih =>
    intro s h
    exact ih (hardStep s op) (hardStep_freeze h op).1

theorem hardRun_cons (s : HardState) (op : PoolOp) (rest : List PoolOp) :
    hardRun s (op :: rest) = hardRun (hardStep s op) rest := rfl

theorem hardRun_frozen_const (ops : List PoolOp) :
    ∀ s : HardState, HardInv s → Frozen s.core →
      (hardRun s ops).core.attempts = s.core.attempts ∧
      (hardRun s ops).core.max_channels = s.core.max_channels := by
  induction ops with
  | nil => exact fun s h hF => ⟨rfl, rfl⟩
  | cons op rest ih =>
    intro s h hF
    obtain ⟨ha, hm, hFs⟩ := (hardStep_freeze h op).2.1 hF
    obtain ⟨ra, rm⟩ := ih (hardStep s op) (hardStep_freeze h op).1 hFs
    rw [hardRun_cons]
    exact ⟨by rw [ra, ha], by rw [rm, hm]⟩

/-- Reachability invariant of the soft pool controlling the capacity
freeze: before any refusal either no channel is multiply used or the
configured capacity is at most the number of known channels; after a
refusal the frozen capacity equals the number of known channels. -/
def SoftFreeze (s : SoftState) : Prop :=
  (¬ Frozen s.core →
     ((∀ p ∈ s.channels, p.2 ≤ 1) ∨
      ∃ m, s.core.max_channels = some m ∧ m ≤ s.channels.length)) ∧
  (Frozen s.core → s.core.max_channels = some s.channels.length)

def SoftInv (s : SoftState) : Prop := SoftWF s ∧ SoftFreeze s

theorem le_one_decUsage {l : List (Nat × Int)} {chan : Nat}
    (h : ∀ p ∈ l, p.2 ≤ 1) : ∀ p ∈ decUsage l chan, p.2 ≤ 1 := by
  induction l with
  | nil =>
    intro p hp
    simp only [decUsage, List.mem_singleton] at hp
    subst hp
    norm_num
  | cons q qs ih =>
    intro p hp
    by_cases hq : q.1 = chan
    · simp only [decUsage, if_pos hq] at hp
      rcases List.mem_cons.mp hp with rfl | hp
      · have := h q (List.mem_cons_self q qs)
        simp only
        omega
      · exact h p (List.mem_cons_of_mem q hp)
    · simp only [decUsage, if_neg hq] at hp
      rcases List.mem_cons.mp hp with rfl | hp
      · exact h p (List.mem_cons_self p qs)
      · exact ih (fun r hr => h r (List.mem_cons_of_mem q hr)) p hp

theorem le_one_bump {l : List (Nat × Int)} {chan : Nat}
    (h : ∀ p ∈ l, p.2 ≤ 1) (hv : ∀ v, (chan, v) ∈ l → v ≤ 0) :
    ∀ p ∈ bump l chan, p.2 ≤ 1 := by
  induction l with
  | nil =>
    intro p hp
    simp only [bump, List.mem_singleton] at hp
    subst hp
    norm_num
  | cons q qs ih =>
    intro p hp
    by_cases hq : q.1 = chan
    · simp only [bump, if_pos hq] at hp
      rcases List.mem_cons.mp hp with rfl | hp
      · have hq2 : q.2 ≤ 0 := by
          apply hv q.2
          rw [← hq]
          exact List.mem_cons_self q qs
        simp only
        omega
      · exact h p (List.mem_cons_of_mem q hp)
    · simp only [bump, if_neg hq] at hp
      rcases List.mem_cons.mp hp with rfl | hp
      · exact h p (List.mem_cons_self p qs)
      · exact ih (fun r hr => h r (List.mem_cons_of_mem q hr))
          (fun v hvm => hv v (List.mem_cons_of_mem q hvm)) p hp

theorem le_one_bump_fresh {l : List (Nat × Int)} {chan : Nat}
    (h : ∀ p ∈ l, p.2 ≤ 1) (hk : hasKey l chan = false) :
    ∀ p ∈ bump l chan, p.2 ≤ 1 := by
  apply le_one_bump h
  intro v hvm
  have := hasKey_of_mem hvm
  rw [hk] at this
  exact Bool.noConfusion this

theorem softStep_freeze {s : SoftState} (h : SoftInv s) (op : PoolOp) :
    SoftInv (softStep s op) ∧
    (Frozen s.core →
       (softStep s op).core.attempts = s.core.attempts ∧
       (softStep s op).core.max_channels = s.core.max_channels ∧
       Frozen (softStep s op).core) ∧
    (¬ Frozen s.core → Frozen (softStep s op).core →
       (softStep s op).core.max_channels = some s.core.active_channels) := by
  obtain ⟨c0, chans⟩ := s
  obtain ⟨hwf, hnf, hfr⟩ := h
  have hw1 := hwf.1
  have hw3 := hwf.2.2.1
  have hw4 := hwf.2.2.2.1
  have hw5 := hwf.2.2.2.2.1
  have hw6 := hwf.2.2.2.2.2
  simp only at hnf hfr hw3 hw4 hw5 hw6
  cases op with
  | rel chan =>
    simp only [softStep]
    unfold softRel
    by_cases hc : c0.held.contains chan = true
    · rw [if_pos hc]
      have hm : chan ∈ c0.held := by
        rw [← List.elem_iff]
        exact hc
      have hk : hasKey chans chan = true := hw3 chan hm
      refine ⟨⟨wfdata_dec hwf hm, ?_, ?_⟩,
        fun hF => ⟨by trivial, by trivial, hF⟩, fun hnF hF => absurd hF hnF⟩
      · intro hNF
        rcases hnf hNF with hd1 | ⟨m, hm1, hm2⟩
        · exact Or.inl (le_one_decUsage hd1)
        · right
          refine ⟨m, hm1, ?_⟩
          rw [length_decUsage_of_hasKey hk]
          exact hm2
      · intro hF
        rw [length_decUsage_of_hasKey hk]
        exact hfr hF
    · rw [if_neg hc]
      exact ⟨⟨hwf, hnf, hfr⟩, fun hF => ⟨by trivial, by trivial, hF⟩,
        fun hnF hF => absurd hF hnF⟩
  | acq =>
    simp only [softStep]
    cases hl : leastUsed chans with
    | none =>
      have hnil : chans = [] := leastUsed_eq_none.mp hl
      subst hnil
      have hheld0 : c0.held = [] := by
        cases hh : c0.held with
        | nil => rfl
        | cons a t =>
          exfalso
          have hx := hw3 a (by rw [hh]; exact List.mem_cons_self a t)
          simp [hasKey] at hx
      have hact0 : c0.active_channels = 0 := by
        rw [hw4, hheld0]
        rfl
      cases hm : maybeNewChannel c0 with
      | created chan c =>
        have hg := maybeNewChannel_created_guard hm
        have hconn := maybeNewChannel_created_conn hm
        obtain ⟨hchan, hcdef⟩ := maybeNewChannel_created_fields hm
        by_cases hF : Frozen c0
        · exfalso
          have hmax := hfr hF
          unfold guardOk at hg
          rw [hmax] at hg
          simp only [decide_eq_true_eq, List.length_nil] at hg
          omega
        · have hFs : ∀ c' : PoolCore, c'.conn = c0.conn →
              c'.attempts = c0.attempts + 1 → ¬ Frozen c' := by
            intro c' hcn hat hF2
            rw [frozen_succ_iff hcn hat] at hF2
            rcases hF2 with hF0 | hr
            · exact hF hF0
            · rw [hconn] at hr
              exact OpenResult.noConfusion hr
          subst hchan
          subst hcdef
          simp only [softAcq, hl, hm, softFinish]
          refine ⟨⟨wfdata_bump_fresh hwf, ?_, fun hF2 => absurd hF2 (hFs _ rfl rfl)⟩,
            fun hF0 => absurd hF0 hF, fun hnF2 hF2 => absurd hF2 (hFs _ rfl rfl)⟩
          intro hNF
          left
          exact le_one_bump_fresh (by simp) rfl
      | noChannel c =>
        rcases maybeNewChannel_noChannel_cases hm with ⟨hg, hcdef⟩ | ⟨hg, hconn, hcdef⟩
        · subst hcdef
          simp only [softAcq, hl, hm]
          exact ⟨⟨hwf, hnf, hfr⟩, fun hF => ⟨by trivial, by trivial, hF⟩,
            fun hnF hF => absurd hF hnF⟩
        · by_cases hF : Frozen c0
          · exfalso
            have hmax := hfr hF
            unfold guardOk at hg
            rw [hmax] at hg
            simp only [decide_eq_true_eq, List.length_nil] at hg
            omega
          · have hFs : ∀ c' : PoolCore, c'.conn = c0.conn →
                c'.attempts = c0.attempts + 1 → Frozen c' := by
              intro c' hcn hat
              rw [frozen_succ_iff hcn hat]
              exact Or.inr hconn
            subst hcdef
            simp only [softAcq, hl, hm]
            refine ⟨⟨?_, ?_, ?_⟩, fun hF0 => absurd hF0 hF,
              fun hnF2 hF2 => by trivial⟩
            · exact softWFData_swap hwf rfl rfl rfl
            · intro hNF
              exact (hNF (hFs _ rfl rfl)).elim
            · intro hF2
              show some c0.active_channels = some ([] : List (Nat × Int)).length
              rw [hact0]
              rfl
      | failed c =>
        have hg := maybeNewChannel_failed_guard hm
        have hconn := maybeNewChannel_failed_conn hm
        have hcdef := maybeNewChannel_failed_fields hm
        by_cases hF : Frozen c0
        · exfalso
          have hmax := hfr hF
          unfold guardOk at hg
          rw [hmax] at hg
          simp only [decide_eq_true_eq, List.length_nil] at hg
          omega
        · have hFs : ∀ c' : PoolCore, c'.conn = c0.conn →
              c'.attempts = c0.attempts + 1 → ¬ Frozen c' := by
            intro c' hcn hat hF2
            rw [frozen_succ_iff hcn hat] at hF2
            rcases hF2 with hF0 | hr
            · exact hF hF0
            · rw [hconn] at hr
              exact OpenResult.noConfusion hr
          subst hcdef
          simp only [softAcq, hl, hm]
          refine ⟨⟨hwf, ?_, fun hF2 => absurd hF2 (hFs _ rfl rfl)⟩,
            fun hF0 => absurd hF0 hF, fun hnF2 hF2 => absurd hF2 (hFs _ rfl rfl)⟩
          intro hNF
          exact hnf hF
    | some pair =>
      obtain ⟨chan0, n0⟩ := pair
      obtain ⟨hmem, hmin⟩ := leastUsed_spec hl
      have hk : hasKey chans chan0 = true := hasKey_of_mem hmem
      by_cases hn : 0 < n0
      · have hge1 : ∀ p ∈ chans, 1 ≤ p.2 := by
          intro p hp
          have := hmin p hp
          simp only at this
          omega
        have hsumge : (chans.length : Int) ≤ sumUsages chans :=
          length_le_sumUsages hge1
        have hge : chans.length ≤ c0.active_channels := by
          rw [hw5] at hsumge
          exact_mod_cast hsumge
        cases hm : maybeNewChannel c0 with
        | created chan c =>
          have hg := maybeNewChannel_created_guard hm
          have hconn := maybeNewChannel_created_conn hm
          obtain ⟨hchan, hcdef⟩ := maybeNewChannel_created_fields hm
          by_cases hF : Frozen c0
          · exfalso
            have hmax := hfr hF
            unfold guardOk at hg
            rw [hmax] at hg
            simp only [decide_eq_true_eq] at hg
            omega
          · have hFs : ∀ c' : PoolCore, c'.conn = c0.conn →
                c'.attempts = c0.attempts + 1 → ¬ Frozen c' := by
              intro c' hcn hat hF2
              rw [frozen_succ_iff hcn hat] at hF2
              rcases hF2 with hF0 | hr
              · exact hF hF0
              · rw [hconn] at hr
                exact OpenResult.noConfusion hr
            have hkf : hasKey chans c0.nextId = false := by
              cases hcase : hasKey chans c0.nextId
              · rfl
              · exact absurd (hw6 _ hcase) (lt_irrefl _)
            subst hchan
            subst hcdef
            simp only [softAcq, hl, if_pos hn, hm, softFinish]
            refine ⟨⟨wfdata_bump_fresh hwf, ?_, fun hF2 => absurd hF2 (hFs _ rfl rfl)⟩,
              fun hF0 => absurd hF0 hF, fun hnF2 hF2 => absurd hF2 (hFs _ rfl rfl)⟩
            intro hNF
            rcases hnf hF with hd1 | ⟨m, hm1, hm2⟩
            · exact Or.inl (le_one_bump_fresh hd1 hkf)
            · right
              refine ⟨m, hm1, ?_⟩
              rw [length_bump_of_not_hasKey hkf]
              omega
        | noChannel c =>
          rcases maybeNewChannel_noChannel_cases hm with ⟨hg, hcdef⟩ | ⟨hg, hconn, hcdef⟩
          · obtain ⟨m, hmx, hmle⟩ := (maybe_new_channel_spec c0).2.2.2.mp hg
            subst hcdef
            simp only [softAcq, hl, if_pos hn, hm, softFinish]
            refine ⟨⟨wfdata_bump_mem hwf hk, ?_, ?_⟩,
              fun hF => ⟨by trivial, by trivial, hF⟩, fun hnF hF => absurd hF hnF⟩
            · intro hNF
              right
              refine ⟨m, hmx, ?_⟩
              rw [length_bump_of_hasKey hk]
              rcases hnf hNF with hd1 | ⟨m', hm1, hm2⟩
              · have hsumle := sumUsages_le_length hd1
                rw [hw5] at hsumle
                have hle : c.active_channels ≤ chans.length := by
                  exact_mod_cast hsumle
                omega
              · rw [hmx] at hm1
                rw [Option.some.injEq] at hm1
                subst hm1
                exact hm2
            · intro hF
              rw [length_bump_of_hasKey hk]
              exact hfr hF
          · by_cases hF : Frozen c0
            · exfalso
              have hmax := hfr hF
              unfold guardOk at hg
              rw [hmax] at hg
              simp only [decide_eq_true_eq] at hg
              omega
            · have hFs : ∀ c' : PoolCore, c'.conn = c0.conn →
                  c'.attempts = c0.attempts + 1 → Frozen c' := by
                intro c' hcn hat
                rw [frozen_succ_iff hcn hat]
                exact Or.inr hconn
              have heq : c0.active_channels = chans.length := by
                rcases hnf hF with hd1 | ⟨m, hm1, hm2⟩
                · have hsumle := sumUsages_le_length hd1
                  rw [hw5] at hsumle
                  have hle : c0.active_channels ≤ chans.length := by
                    exact_mod_cast hsumle
                  omega
                · exfalso
                  unfold guardOk at hg
                  rw [hm1] at hg
                  simp only [decide_eq_true_eq] at hg
                  omega
              subst hcdef
              simp only [softAcq, hl, if_pos hn, hm, softFinish]
              refine ⟨⟨wfdata_bump_mem hwf hk, ?_, ?_⟩,
                fun hF0 => absurd hF0 hF, fun hnF2 hF2 => by trivial⟩
              · intro hNF
                exact (hNF (hFs _ rfl rfl)).elim
              · intro hF2
                show some c0.active_channels = some (bump chans chan0).length
                rw [length_bump_of_hasKey hk, heq]
        | failed c =>
          have hg := maybeNewChannel_failed_guard hm
          have hconn := maybeNewChannel_failed_conn hm
          have hcdef := maybeNewChannel_failed_fields hm
          by_cases hF : Frozen c0
          · exfalso
            have hmax := hfr hF
            unfold guardOk at hg
            rw [hmax] at hg
            simp only [decide_eq_true_eq] at hg
            omega
          · have hFs : ∀ c' : PoolCore, c'.conn = c0.conn →
                c'.attempts = c0.attempts + 1 → ¬ Frozen c' := by
              intro c' hcn hat hF2
              rw [frozen_succ_iff hcn hat] at hF2
              rcases hF2 with hF0 | hr
              · exact hF hF0
              · rw [hconn] at hr
                exact OpenResult.noConfusion hr
            subst hcdef
            simp only [softAcq, hl, if_pos hn, hm]
            refine ⟨⟨hwf, ?_, fun hF2 => absurd hF2 (hFs _ rfl rfl)⟩,
              fun hF0 => absurd hF0 hF, fun hnF2 hF2 => absurd hF2 (hFs _ rfl rfl)⟩
            intro hNF
            exact hnf hF
      · have hv : ∀ v, (chan0, v) ∈ chans → v ≤ 0 := by
          intro v hvm
          have hlv := lookupUsage_of_mem_nodup hw1 hvm
          have hln := lookupUsage_of_mem_nodup hw1 hmem
          simp only at hlv hln
          rw [hlv] at hln
          omega
        simp only [softAcq, hl, if_neg hn, softFinish]
        refine ⟨⟨wfdata_bump_mem hwf hk, ?_, ?_⟩,
          fun hF => ⟨by trivial, by trivial, hF⟩, fun hnF hF => absurd hF hnF⟩
        · intro hNF
          rcases hnf hNF with hd1 | ⟨m, hm1, hm2⟩
          · exact Or.inl (le_one_bump hd1 hv)
          · right
            refine ⟨m, hm1, ?_⟩
            rw [length_bump_of_hasKey hk]
            exact hm2
        · intro hF
          rw [length_bump_of_hasKey hk]
          exact hfr hF

theorem softInv_init (conn : Nat → OpenResult) (mc : Option Nat)
    (tA : Option (Option Nat)) (ut : Bool) :
    SoftInv (softInit conn mc tA ut) :=
  ⟨softWF_init conn mc tA ut,
   fun _ => Or.inl (by simp [softInit]),
   fun hF => absurd hF (not_frozen_init conn mc tA ut)⟩

theorem softRun_cons (s : SoftState) (op : PoolOp) (rest : List PoolOp) :
    softRun s (op :: rest) = softRun (softStep s op) rest := rfl

theorem softInv_run_aux (ops : List PoolOp) :
    ∀ s : SoftState, SoftInv s → SoftInv (softRun s ops) := by
  induction ops with
  | nil => exact fun s h => h
  | cons op rest ih =>
    intro s h
    exact ih (softStep s op) (softStep_freeze h op).1

theorem softRun_frozen_const (ops : List PoolOp) :
    ∀ s : SoftState, SoftInv s → Frozen s.core →
      (softRun s ops).core.attempts = s.core.attempts ∧
      (softRun s ops).core.max_channels = s.core.max_channels := by
  induction ops with
  | nil => exact fun s h hF => ⟨rfl, rfl⟩
  | cons op rest ih =>
    intro s h hF
    obtain ⟨ha, hm, hFs⟩ := (softStep_freeze h op).2.1 hF
    obtain ⟨ra, rm⟩ := ih (softStep s op) (softStep_freeze h op).1 hFs
    rw [softRun_cons]
    exact ⟨by rw [ra, ha], by rw [rm, hm]⟩

/-! ## Claim C2 -/

/-- Claim C2: for both pool policies, after any reachable state in which
a creation refusal has occurred, every further sequence of operations
during the pool lifetime leaves `attempts` (the number of
`start_sftp_client` calls) and the frozen `max_channels` unchanged — no
creation is ever attempted again; and the step that first observes a
refusal freezes `max_channels` at exactly the `active_channels` observed
at that moment. -/
theorem capacity_freeze_is_permanent
    (connH connS : Nat → OpenResult) (mcH mcS : Option Nat)
    (tH tS : Option (Option Nat)) (uH uS : Bool)
    (ops1 more1 ops2 more2 : List PoolOp) :
    (Frozen (hardRun (hardInit connH mcH tH uH) ops1).core →
       (hardRun (hardRun (hardInit connH mcH tH uH) ops1) more1).core.attempts =
         (hardRun (hardInit connH mcH tH uH) ops1).core.attempts ∧
       (hardRun (hardRun (hardInit connH mcH tH uH) ops1) more1).core.max_channels =
         (hardRun (hardInit connH mcH tH uH) ops1).core.max_channels) ∧
    (Frozen (softRun (softInit connS mcS tS uS) ops2).core →
       (softRun (softRun (softInit connS mcS tS uS) ops2) more2).core.attempts =
         (softRun (softInit connS mcS tS uS) ops2).core.attempts ∧
       (softRun (softRun (softInit connS mcS tS uS) ops2) more2).core.max_channels =
         (softRun (softInit connS mcS tS uS) ops2).core.max_channels) ∧
    (∀ op, ¬ Frozen (hardRun (hardInit connH mcH tH uH) ops1).core →
       Frozen (hardStep (hardRun (hardInit connH mcH tH uH) ops1) op).core →
       (hardStep (hardRun (hardInit connH mcH tH uH) ops1) op).core.max_channels =
         some (hardRun (hardInit connH mcH tH uH) ops1).core.active_channels) ∧
    (∀ op, ¬ Frozen (softRun (softInit connS mcS tS uS) ops2).core →
       Frozen (softStep (softRun (softInit connS mcS tS uS) ops2) op).core →
       (softStep (softRun (softInit connS mcS tS uS) ops2) op).core.max_channels =
         some (softRun (softInit connS mcS tS uS) ops2).core.active_channels) := by
  have hHI := hardInv_run_aux ops1 (hardInit connH mcH tH uH)
    (hardInv_init connH mcH tH uH)
  have hSI := softInv_run_aux ops2 (softInit connS mcS tS uS)
    (softInv_init connS mcS tS uS)
  refine ⟨?_, ?_, ?_, ?_⟩
  · intro hF
    exact hardRun_frozen_const more1 _ hHI hF
  · intro hF
    exact softRun_frozen_const more2 _ hSI hF
  · intro op hnF hF
    exact (hardStep_freeze hHI op).2.2 hnF hF
  · intro op hnF hF
    exact (softStep_freeze hSI op).2.2 hnF hF

theorem capacity_freeze_is_permanent_witness :
    ((hardRun (hardRun (hardInit (fun _ => OpenResult.refusal) none none true)
         [PoolOp.acq]) [PoolOp.acq, PoolOp.acq]).core.attempts =
       (hardRun (hardInit (fun _ => OpenResult.refusal) none none true)
         [PoolOp.acq]).core.attempts ∧
     (hardRun (hardRun (hardInit (fun _ => OpenResult.refusal) none none true)
         [PoolOp.acq]) [PoolOp.acq, PoolOp.acq]).core.max_channels =
       (hardRun (hardInit (fun _ => OpenResult.refusal) none none true)
         [PoolOp.acq]).core.max_channels) ∧
    ((softRun (softRun (softInit (fun _ => OpenResult.refusal) none none true)
         [PoolOp.acq]) [PoolOp.acq, PoolOp.acq]).core.attempts =
       (softRun (softInit (fun _ => OpenResult.refusal) none none true)
         [PoolOp.acq]).core.attempts ∧
     (softRun (softRun (softInit (fun _ => OpenResult.refusal) none none true)
         [PoolOp.acq]) [PoolOp.acq, PoolOp.acq]).core.max_channels =
       (softRun (softInit (fun _ => OpenResult.refusal) none none true)
         [PoolOp.acq]).core.max_channels) ∧
    (hardStep (hardRun (hardInit (fun _ => OpenResult.refusal) none none true) [])
        PoolOp.acq).core.max_channels = some 0 ∧
    (softStep (softRun (softInit (fun _ => OpenResult.refusal) none none true) [])
        PoolOp.acq).core.max_channels = some 0 := by
  have h := capacity_freeze_is_permanent (fun _ => OpenResult.refusal)
    (fun _ => OpenResult.refusal) none none none none true true
    [PoolOp.acq] [PoolOp.acq, PoolOp.acq] [PoolOp.acq] [PoolOp.acq, PoolOp.acq]
  have h0 := capacity_freeze_is_permanent (fun _ => OpenResult.refusal)
    (fun _ => OpenResult.refusal) none none none none true true
    [] [] [] []
  refine ⟨h.1 ⟨0, Nat.zero_lt_one, rfl⟩, h.2.1 ⟨0, Nat.zero_lt_one, rfl⟩,
    h0.2.2.1 PoolOp.acq ?_ ⟨0, Nat.zero_lt_one, rfl⟩,
    h0.2.2.2 PoolOp.acq ?_ ⟨0, Nat.zero_lt_one, rfl⟩⟩
  · rintro ⟨j, hj, -⟩
    exact absurd hj (Nat.not_lt_zero j)
  · rintro ⟨j, hj, -⟩
    exact absurd hj (Nat.not_lt_zero j)
